import Mathlib

/-!
# Root finders of `src/roots/roots.cpp`

A shallow embedding of the four routines `bisection`, `regula_falsi`,
`newton_raphson` and `secant`.

Modelling choices.

* The C++ `double` is modelled by an arbitrary linearly ordered field `α`
  (exact arithmetic).  Every definition is computable; at `α = ℚ` it can be
  evaluated.  Rounding, overflow, infinities and NaN are outside the model.
* The callable `std::function<double(double)>` is a pure function `α → α`.
* The output slot `double *root` is modelled by explicit state passing: each
  routine takes the value the slot holds before the call and returns the pair
  `(flag, slot)` of the returned `bool` and the value of the slot afterwards.
* Each `for (int i = 0; i < cap; i++)` loop is a structural recursion on the
  number of iterations that remain, so it runs exactly as often as the source.
-/

namespace Roots

variable {α : Type} [LinearOrderedField α]

/-- The constant `tolerance` / `tol` of all four routines, `1e-6`. -/
def tolerance : α := 1e-6

/-- The constant `max_cap` of `bisection` and `regula_falsi`. -/
def max_cap : Nat := 500

/-- The constant `max_iter` of `newton_raphson` and `secant`. -/
def max_iter : Nat := 100

/-- What one pass through a loop body does: it either executes a `return`
that writes `*root` and `return true` (`ret`), or falls through to the next
iteration with an updated state (`next`).  The loops of the two bracketing
routines have no other exit. -/
inductive LoopStep (σ : Type) (α : Type) where
  | ret (root : α) : LoopStep σ α
  | next (s : σ) : LoopStep σ α

/-! ## bisection -/

/-- The local variables of `bisection` that live across iterations. -/
structure BisectState (α : Type) where
  a : α
  b : α
  fa : α
  fb : α

/-- The body of the `for` loop of `bisection` (source lines 42-56). -/
def bisectionStep (f : α → α) (s : BisectState α) : LoopStep (BisectState α) α :=
  let midpoint := (s.a + s.b) / 2
  let fmid := f midpoint
  if |fmid| < tolerance then
    LoopStep.ret midpoint
  else if s.fa * fmid < 0 then
    LoopStep.next { a := s.a, b := midpoint, fa := s.fa, fb := fmid }
  else
    LoopStep.next { a := midpoint, b := s.b, fa := fmid, fb := s.fb }

/-- The `for` loop of `bisection` with `n` iterations left, followed by the
statement after the loop, `*root = 0.5 * (a + b)`.  The result is the value
written to `*root`; every path out of the loop returns `true`. -/
def bisectionLoop (f : α → α) : Nat → BisectState α → α
  | 0, s => 0.5 * (s.a + s.b)
  | n + 1, s =>
    match bisectionStep f s with
    | LoopStep.ret r => r
    | LoopStep.next s' => bisectionLoop f n s'

/-- The routine `bisection(f, a, b, root)`. -/
def bisection (f : α → α) (a b : α) (root : α) : Bool × α :=
  let fa := f a
  let fb := f b
  if fa = 0 then (true, a)
  else if fb = 0 then (true, b)
  else if fa * fb > 0 then (false, root)
  else (true, bisectionLoop f max_cap { a := a, b := b, fa := fa, fb := fb })

/-- The state of `bisection` after `k` complete passes through the loop body,
or `none` when one of these passes returned. -/
def bisectionIter (f : α → α) : Nat → BisectState α → Option (BisectState α)
  | 0, s => some s
  | k + 1, s =>
    match bisectionStep f s with
    | LoopStep.ret _ => none
    | LoopStep.next s' => bisectionIter f k s'

/-! ## regula_falsi -/

/-- The local variables of `regula_falsi` that live across iterations. -/
structure FalsiState (α : Type) where
  a : α
  b : α
  fa : α
  fb : α
  count_a : Nat
  count_b : Nat

/-- The false-position formula `a - (fa * (b - a)) / (fb - fa)` on the
current endpoints and cached values (source lines 102 and 127). -/
def falsePosition (s : FalsiState α) : α :=
  s.a - (s.fa * (s.b - s.a)) / (s.fb - s.fa)

/-- The body of the `for` loop of `regula_falsi` (source lines 102-125). -/
def regulaFalsiStep (f : α → α) (s : FalsiState α) : LoopStep (FalsiState α) α :=
  let midpoint := s.a - (s.fa * (s.b - s.a)) / (s.fb - s.fa)
  let fmid := f midpoint
  if |fmid| < tolerance then
    LoopStep.ret midpoint
  else if s.fa * fmid < 0 then
    let count_a := s.count_a + 1
    LoopStep.next
      { a := s.a, b := midpoint,
        fa := if count_a > 1 then s.fa / 2 else s.fa, fb := fmid,
        count_a := count_a, count_b := 0 }
  else
    let count_b := s.count_b + 1
    LoopStep.next
      { a := midpoint, b := s.b,
        fa := fmid, fb := if count_b > 1 then s.fb / 2 else s.fb,
        count_a := 0, count_b := count_b }

/-- The `for` loop of `regula_falsi` with `n` iterations left, followed by
`*root = a - fa * (b - a) / (fb - fa)`. -/
def regulaFalsiLoop (f : α → α) : Nat → FalsiState α → α
  | 0, s => s.a - s.fa * (s.b - s.a) / (s.fb - s.fa)
  | n + 1, s =>
    match regulaFalsiStep f s with
    | LoopStep.ret r => r
    | LoopStep.next s' => regulaFalsiLoop f n s'

/-- The routine `regula_falsi(f, a, b, root)`. -/
def regula_falsi (f : α → α) (a b : α) (root : α) : Bool × α :=
  let fa := f a
  let fb := f b
  if fa = 0 then (true, a)
  else if fb = 0 then (true, b)
  else if fa * fb > 0 then (false, root)
  else (true, regulaFalsiLoop f max_cap
    { a := a, b := b, fa := fa, fb := fb, count_a := 0, count_b := 0 })

/-- The state of `regula_falsi` after `k` complete passes through the loop
body, or `none` when one of these passes returned. -/
def regulaFalsiIter (f : α → α) : Nat → FalsiState α → Option (FalsiState α)
  | 0, s => some s
  | k + 1, s =>
    match regulaFalsiStep f s with
    | LoopStep.ret _ => none
    | LoopStep.next s' => regulaFalsiIter f k s'

/-! ## newton_raphson -/

/-- The `for` loop of `newton_raphson` with `n` iterations left, at the
current `x`: `some r` when it executes `*root = r; return true`, `none` when
it executes `return false` (inside the loop or after it). -/
def newtonLoop (f g : α → α) (a b : α) : Nat → α → Option α
  | 0, _ => none
  | n + 1, x =>
    let fx := f x
    let gx := g x
    if gx = 0 then none
    else
      let x_new := x - fx / gx
      if x_new < a ∨ x_new > b then none
      else if |x_new - x| < tolerance ∨ |f x_new| < tolerance then some x_new
      else newtonLoop f g a b n x_new

/-- The routine `newton_raphson(f, g, a, b, c, root)`. -/
def newton_raphson (f g : α → α) (a b c : α) (root : α) : Bool × α :=
  match newtonLoop f g a b max_iter c with
  | some r => (true, r)
  | none => (false, root)

/-- The Newton update `x - f(x) / g(x)` (source line 162). -/
def newtonUpdate (f g : α → α) (x : α) : α := x - f x / g x

/-- The convergence test of both open methods (source lines 169 and 212) for
the step from `x` to `x_new`. -/
def converged (f : α → α) (x x_new : α) : Prop :=
  |x_new - x| < tolerance ∨ |f x_new| < tolerance

instance (f : α → α) (x x_new : α) : Decidable (converged f x x_new) := by
  unfold converged; infer_instance

/-! ## secant -/

/-- The `for` loop of `secant` with `n` iterations left, at the current pair
`x_prev`, `x_curr`: `some r` when it executes `*root = r; return true`,
`none` when it executes `return false`. -/
def secantLoop (f : α → α) (a b : α) : Nat → α → α → Option α
  | 0, _, _ => none
  | n + 1, x_prev, x_curr =>
    let f_prev := f x_prev
    let f_curr := f x_curr
    let denom := f_curr - f_prev
    if denom = 0 then none
    else
      let x_next := x_curr - f_curr * (x_curr - x_prev) / denom
      if x_next < a ∨ x_next > b then none
      else if |x_next - x_curr| < tolerance ∨ |f x_next| < tolerance then some x_next
      else secantLoop f a b n x_curr x_next

/-- The routine `secant(f, a, b, c, root)`. -/
def secant (f : α → α) (a b c : α) (root : α) : Bool × α :=
  match secantLoop f a b max_iter c (c + 1e-4) with
  | some r => (true, r)
  | none => (false, root)

/-- The secant update on the pair `(x_prev, x_curr)`: the new pair
`(x_curr, x_next)` (source lines 204-205 and 218-219). -/
def secantUpdate (f : α → α) (p : α × α) : α × α :=
  (p.2, p.2 - f p.2 * (p.2 - p.1) / (f p.2 - f p.1))

/-! ## Concrete inputs named by the specification -/

/-- The test function `f(x) = x² − 2` over the rationals. -/
def sqrtTwoF : ℚ → ℚ := fun x => x ^ 2 - 2

/-- Its derivative `g(x) = 2x`. -/
def sqrtTwoG : ℚ → ℚ := fun x => 2 * x

/-- The function `f(x) = x³ − 2x + 2`, on which Newton's method started at
`0` cycles. -/
def cycleF : ℚ → ℚ := fun x => x ^ 3 - 2 * x + 2

/-- Its derivative `g(x) = 3x² − 2`. -/
def cycleG : ℚ → ℚ := fun x => 3 * x ^ 2 - 2

/-- The function `f(x) = 2¹⁰¹ / x`, on which the secant update of the pair
`(u, v)` is `(v, u + v)`, so that the iterates grow like Fibonacci numbers
and never meet the convergence test within 100 steps. -/
def recipF : ℚ → ℚ := fun x => 2 ^ 101 / x

/-- The steep line `f(x) = 2⁵⁰⁰ · x`.  On `[-1, 2]` bisection never meets the
tolerance: its `k`-th midpoint is `± 1 / 2^(k+1)`, where `|f|` is at least
`1`, so that all 500 iterations run. -/
def steepF (x : α) : α := 2 ^ 500 * x

/-! # Theorems -/

/-! ## Basic facts about the loops -/

theorem newton_raphson_of_some {f g : α → α} {a b c root r : α}
    (h : newtonLoop f g a b max_iter c = some r) :
    newton_raphson f g a b c root = (true, r) := by
  simp [newton_raphson, h]

theorem newton_raphson_of_none {f g : α → α} {a b c root : α}
    (h : newtonLoop f g a b max_iter c = none) :
    newton_raphson f g a b c root = (false, root) := by
  simp [newton_raphson, h]

theorem newtonLoop_of_newton_raphson {f g : α → α} {a b c root r : α}
    (h : newton_raphson f g a b c root = (true, r)) :
    newtonLoop f g a b max_iter c = some r := by
  unfold newton_raphson at h
  cases hl : newtonLoop f g a b max_iter c with
  | none => simp [hl] at h
  | some r' => simp [hl] at h; simp [h]

theorem secant_of_some {f : α → α} {a b c root r : α}
    (h : secantLoop f a b max_iter c (c + 1e-4) = some r) :
    secant f a b c root = (true, r) := by
  simp [secant, h]

theorem secant_of_none {f : α → α} {a b c root : α}
    (h : secantLoop f a b max_iter c (c + 1e-4) = none) :
    secant f a b c root = (false, root) := by
  simp [secant, h]

theorem secantLoop_of_secant {f : α → α} {a b c root r : α}
    (h : secant f a b c root = (true, r)) :
    secantLoop f a b max_iter c (c + 1e-4) = some r := by
  unfold secant at h
  cases hl : secantLoop f a b max_iter c (c + 1e-4) with
  | none => simp [hl] at h
  | some r' => simp [hl] at h; simp [h]

/-! ## C1, C2: the entry checks of the bracketing routines -/

/-- C1: an exact zero at an endpoint short-circuits both bracketing routines.
If `f a = 0` they return success with root `a`; if `f a ≠ 0` and `f b = 0`
they return success with root `b`. -/
theorem endpoint_zero_short_circuit (f : α → α) (a b root : α) :
    (f a = 0 →
      bisection f a b root = (true, a) ∧ regula_falsi f a b root = (true, a)) ∧
    (f a ≠ 0 → f b = 0 →
      bisection f a b root = (true, b) ∧ regula_falsi f a b root = (true, b)) := by
  refine ⟨fun ha => ?_, fun ha hb => ?_⟩
  · simp [bisection, regula_falsi, ha]
  · simp [bisection, regula_falsi, ha, hb]

theorem endpoint_zero_short_circuit_witness :
    (bisection (fun x : ℚ => x) 0 1 7 = (true, 0) ∧
      regula_falsi (fun x : ℚ => x) 0 1 7 = (true, 0)) ∧
    (bisection (fun x : ℚ => x - 1) 0 1 7 = (true, 1) ∧
      regula_falsi (fun x : ℚ => x - 1) 0 1 7 = (true, 1)) :=
  ⟨(endpoint_zero_short_circuit (fun x : ℚ => x) 0 1 7).1 rfl,
   (endpoint_zero_short_circuit (fun x : ℚ => x - 1) 0 1 7).2 (by norm_num) (by norm_num)⟩

/-- C2: when `f a * f b > 0` both bracketing routines return failure, for
all bounds `a`, `b` in any order. -/
theorem same_sign_fails (f : α → α) (a b root : α) (h : f a * f b > 0) :
    (bisection f a b root).1 = false ∧ (regula_falsi f a b root).1 = false := by
  have ha : f a ≠ 0 := fun h0 => by simp [h0] at h
  have hb : f b ≠ 0 := fun h0 => by simp [h0] at h
  simp [bisection, regula_falsi, ha, hb, h]

theorem same_sign_fails_witness :
    ((fun x : ℚ => x ^ 2 + 1) 3 * (fun x : ℚ => x ^ 2 + 1) 3 > 0 ∧
      (bisection (fun x : ℚ => x ^ 2 + 1) 3 3 7).1 = false ∧
      (regula_falsi (fun x : ℚ => x ^ 2 + 1) 3 3 7).1 = false) ∧
    ((fun x : ℚ => x ^ 2 + 1) 2 * (fun x : ℚ => x ^ 2 + 1) (-1) > 0 ∧
      (bisection (fun x : ℚ => x ^ 2 + 1) 2 (-1) 7).1 = false ∧
      (regula_falsi (fun x : ℚ => x ^ 2 + 1) 2 (-1) 7).1 = false) :=
  ⟨⟨by norm_num, same_sign_fails (fun x : ℚ => x ^ 2 + 1) 3 3 7 (by norm_num)⟩,
   ⟨by norm_num, same_sign_fails (fun x : ℚ => x ^ 2 + 1) 2 (-1) 7 (by norm_num)⟩⟩

/-! ## C4, C10: vanishing denominators in the open methods -/

/-- C4: when the derivative vanishes at the initial guess, `g c = 0`,
`newton_raphson` returns failure, whatever `f c` is and wherever `c` lies. -/
theorem newton_zero_derivative_fails (f g : α → α) (a b c root : α) (h : g c = 0) :
    (newton_raphson f g a b c root).1 = false := by
  have hl : newtonLoop f g a b max_iter c = none := by
    simp [max_iter, newtonLoop, h]
  rw [newton_raphson_of_none hl]

theorem newton_zero_derivative_fails_witness :
    (fun x : ℚ => 2 * x) 0 = 0 ∧
    (newton_raphson (fun x : ℚ => x ^ 2 - 2) (fun x : ℚ => 2 * x) 1 2 0 7).1 = false :=
  ⟨by norm_num,
   newton_zero_derivative_fails (fun x : ℚ => x ^ 2 - 2) (fun x : ℚ => 2 * x) 1 2 0 7
     (by norm_num)⟩

/-- C10: when `f (c + 1e-4) = f c` the finite-difference denominator of the
first secant step is zero and `secant` returns failure. -/
theorem secant_zero_denominator_fails (f : α → α) (a b c root : α)
    (h : f (c + 1e-4) = f c) :
    (secant f a b c root).1 = false := by
  have hl : secantLoop f a b max_iter c (c + 1e-4) = none := by
    simp [max_iter, secantLoop, h]
  rw [secant_of_none hl]

theorem secant_zero_denominator_fails_witness :
    (fun _ : ℚ => (5 : ℚ)) (1 + 1e-4) = (fun _ : ℚ => (5 : ℚ)) 1 ∧
    (secant (fun _ : ℚ => (5 : ℚ)) 0 2 1 7).1 = false :=
  ⟨rfl, secant_zero_denominator_fails (fun _ : ℚ => (5 : ℚ)) 0 2 1 7 rfl⟩

/-! ## C7: the domain guard of the open methods -/

theorem newtonLoop_mem_domain {f g : α → α} {a b : α} :
    ∀ (n : Nat) (x r : α), newtonLoop f g a b n x = some r → a ≤ r ∧ r ≤ b := by
  intro n
  induction n with
  | zero => intro x r h; simp [newtonLoop] at h
  | succ n ih =>
    intro x r h
    simp only [newtonLoop] at h
    split_ifs at h with h1 h2 h3
    · simp only [Option.some.injEq] at h
      subst h
      exact ⟨not_lt.mp fun hlt => h2 (Or.inl hlt), not_lt.mp fun hlt => h2 (Or.inr hlt)⟩
    · exact ih _ _ h

theorem secantLoop_mem_domain {f : α → α} {a b : α} :
    ∀ (n : Nat) (x_prev x_curr r : α),
      secantLoop f a b n x_prev x_curr = some r → a ≤ r ∧ r ≤ b := by
  intro n
  induction n with
  | zero => intro x_prev x_curr r h; simp [secantLoop] at h
  | succ n ih =>
    intro x_prev x_curr r h
    simp only [secantLoop] at h
    split_ifs at h with h1 h2 h3
    · simp only [Option.some.injEq] at h
      subst h
      exact ⟨not_lt.mp fun hlt => h2 (Or.inl hlt), not_lt.mp fun hlt => h2 (Or.inr hlt)⟩
    · exact ih _ _ _ h

theorem newtonLoop_none_of_outside {f g : α → α} {a b : α} (n : Nat) (x : α)
    (h : newtonUpdate f g x < a ∨ b < newtonUpdate f g x) :
    newtonLoop f g a b n x = none := by
  cases n with
  | zero => rfl
  | succ n =>
    simp only [newtonLoop]
    split_ifs with h1 h2 h3
    · rfl
    · rfl
    · exact absurd h h2
    · exact absurd h h2

theorem secantLoop_none_of_outside {f : α → α} {a b : α} (n : Nat) (p : α × α)
    (h : (secantUpdate f p).2 < a ∨ b < (secantUpdate f p).2) :
    secantLoop f a b n p.1 p.2 = none := by
  cases n with
  | zero => rfl
  | succ n =>
    simp only [secantLoop]
    split_ifs with h1 h2 h3
    · rfl
    · rfl
    · exact absurd h h2
    · exact absurd h h2

/-- C7: whenever `newton_raphson` or `secant` returns success the root lies
in `[a, b]`; at any point of either loop, an update that falls outside
`[a, b]` makes the loop return failure whether or not it meets the
convergence test; and both routines fail when `a > b`. -/
theorem open_methods_domain_guard (f g : α → α) (a b c root : α) :
    (∀ r, newton_raphson f g a b c root = (true, r) → a ≤ r ∧ r ≤ b) ∧
    (∀ r, secant f a b c root = (true, r) → a ≤ r ∧ r ≤ b) ∧
    (∀ (n : Nat) (x : α), newtonUpdate f g x < a ∨ b < newtonUpdate f g x →
      newtonLoop f g a b n x = none) ∧
    (∀ (n : Nat) (p : α × α), (secantUpdate f p).2 < a ∨ b < (secantUpdate f p).2 →
      secantLoop f a b n p.1 p.2 = none) ∧
    (b < a → (newton_raphson f g a b c root).1 = false ∧
      (secant f a b c root).1 = false) := by
  refine ⟨fun r h => newtonLoop_mem_domain _ _ _ (newtonLoop_of_newton_raphson h),
    fun r h => secantLoop_mem_domain _ _ _ _ (secantLoop_of_secant h),
    fun n x h => newtonLoop_none_of_outside n x h,
    fun n p h => secantLoop_none_of_outside n p h, fun hab => ⟨?_, ?_⟩⟩
  · cases hl : newtonLoop f g a b max_iter c with
    | none => rw [newton_raphson_of_none hl]
    | some r =>
      have := newtonLoop_mem_domain _ _ _ hl
      exact absurd (this.1.trans this.2) (not_le.mpr hab)
  · cases hl : secantLoop f a b max_iter c (c + 1e-4) with
    | none => rw [secant_of_none hl]
    | some r =>
      have := secantLoop_mem_domain _ _ _ _ hl
      exact absurd (this.1.trans this.2) (not_le.mpr hab)

theorem newtonLoop_fuel_succ {f g : α → α} {a b : α} :
    ∀ (n : Nat) (x r : α), newtonLoop f g a b n x = some r →
      newtonLoop f g a b (n + 1) x = some r := by
  intro n
  induction n with
  | zero => intro x r h; simp [newtonLoop] at h
  | succ n ih =>
    intro x r h
    rw [newtonLoop] at h ⊢
    simp only at h ⊢
    split_ifs at h ⊢ with h1 h2 h3
    · exact h
    · exact ih _ _ h

theorem newtonLoop_fuel_mono {f g : α → α} {a b : α} {n m : Nat} {x r : α}
    (hnm : n ≤ m) (h : newtonLoop f g a b n x = some r) :
    newtonLoop f g a b m x = some r := by
  induction hnm with
  | refl => exact h
  | step _ ih => exact newtonLoop_fuel_succ _ _ _ ih

theorem secantLoop_fuel_succ {f : α → α} {a b : α} :
    ∀ (n : Nat) (x_prev x_curr r : α), secantLoop f a b n x_prev x_curr = some r →
      secantLoop f a b (n + 1) x_prev x_curr = some r := by
  intro n
  induction n with
  | zero => intro x_prev x_curr r h; simp [secantLoop] at h
  | succ n ih =>
    intro x_prev x_curr r h
    rw [secantLoop] at h ⊢
    simp only at h ⊢
    split_ifs at h ⊢ with h1 h2 h3
    · exact h
    · exact ih _ _ _ h

theorem secantLoop_fuel_mono {f : α → α} {a b : α} {n m : Nat} {x_prev x_curr r : α}
    (hnm : n ≤ m) (h : secantLoop f a b n x_prev x_curr = some r) :
    secantLoop f a b m x_prev x_curr = some r := by
  induction hnm with
  | refl => exact h
  | step _ ih => exact secantLoop_fuel_succ _ _ _ _ ih

theorem newtonLoop_sqrtTwo_four :
    newtonLoop sqrtTwoF sqrtTwoG 0 2 4 1 = some (665857 / 470832) := by
  simp only [newtonLoop, sqrtTwoF, sqrtTwoG, tolerance]
  norm_num [abs_lt]

theorem newtonLoop_sqrtTwo_three :
    newtonLoop sqrtTwoF sqrtTwoG 0 2 3 1 = none := by
  simp only [newtonLoop, sqrtTwoF, sqrtTwoG, tolerance]
  norm_num [abs_lt]

theorem secantLoop_step {f : α → α} {a b : α} (n : Nat) (x_prev x_curr x_next : α)
    (hden : f x_curr - f x_prev ≠ 0)
    (hnext : x_next = x_curr - f x_curr * (x_curr - x_prev) / (f x_curr - f x_prev))
    (hdom : a ≤ x_next ∧ x_next ≤ b)
    (hconv : ¬ converged f x_curr x_next) :
    secantLoop f a b (n + 1) x_prev x_curr = secantLoop f a b n x_curr x_next := by
  subst hnext
  unfold converged at hconv
  rw [secantLoop]
  simp only
  rw [if_neg hden, if_neg (by rw [not_or, not_lt, not_lt]; exact hdom), if_neg hconv]

theorem secantLoop_return {f : α → α} {a b : α} (n : Nat) (x_prev x_curr x_next : α)
    (hden : f x_curr - f x_prev ≠ 0)
    (hnext : x_next = x_curr - f x_curr * (x_curr - x_prev) / (f x_curr - f x_prev))
    (hdom : a ≤ x_next ∧ x_next ≤ b)
    (hconv : converged f x_curr x_next) :
    secantLoop f a b (n + 1) x_prev x_curr = some x_next := by
  subst hnext
  unfold converged at hconv
  rw [secantLoop]
  simp only
  rw [if_neg hden, if_neg (by rw [not_or, not_lt, not_lt]; exact hdom), if_pos hconv]

theorem secantLoop_sqrtTwo_four :
    secantLoop sqrtTwoF 0 2 4 1 (1 + 1e-4) = none := by
  rw [secantLoop_step 3 1 (1 + 1e-4) (30001 / 20001)
        (by norm_num [sqrtTwoF]) (by norm_num [sqrtTwoF]) (by norm_num)
        (by norm_num [converged, sqrtTwoF, tolerance, abs_lt]),
    secantLoop_step 2 (1 + 1e-4) (30001 / 20001) (700060001 / 500040001)
        (by norm_num [sqrtTwoF]) (by norm_num [sqrtTwoF]) (by norm_num)
        (by norm_num [converged, sqrtTwoF, tolerance, abs_lt]),
    secantLoop_step 1 (30001 / 20001) (700060001 / 500040001)
        (41005100210003 / 29003600150002)
        (by norm_num [sqrtTwoF]) (by norm_num [sqrtTwoF]) (by norm_num)
        (by norm_num [converged, sqrtTwoF, tolerance, abs_lt]),
    secantLoop_step 0 (700060001 / 500040001) (41005100210003 / 29003600150002)
        (57711950990041000850007 / 40808450700029000600005)
        (by norm_num [sqrtTwoF]) (by norm_num [sqrtTwoF]) (by norm_num)
        (by norm_num [converged, sqrtTwoF, tolerance, abs_lt])]
  rfl

theorem secantLoop_sqrtTwo_five :
    secantLoop sqrtTwoF 0 2 5 1 (1 + 1e-4) =
      some (4733668307350833775132312669207920041 / 3347208960761317489522848473205600029) := by
  rw [secantLoop_step 4 1 (1 + 1e-4) (30001 / 20001)
        (by norm_num [sqrtTwoF]) (by norm_num [sqrtTwoF]) (by norm_num)
        (by norm_num [converged, sqrtTwoF, tolerance, abs_lt]),
    secantLoop_step 3 (1 + 1e-4) (30001 / 20001) (700060001 / 500040001)
        (by norm_num [sqrtTwoF]) (by norm_num [sqrtTwoF]) (by norm_num)
        (by norm_num [converged, sqrtTwoF, tolerance, abs_lt]),
    secantLoop_step 2 (30001 / 20001) (700060001 / 500040001)
        (41005100210003 / 29003600150002)
        (by norm_num [sqrtTwoF]) (by norm_num [sqrtTwoF]) (by norm_num)
        (by norm_num [converged, sqrtTwoF, tolerance, abs_lt]),
    secantLoop_step 1 (700060001 / 500040001) (41005100210003 / 29003600150002)
        (57711950990041000850007 / 40808450700029000600005)
        (by norm_num [sqrtTwoF]) (by norm_num [sqrtTwoF]) (by norm_num)
        (by norm_num [converged, sqrtTwoF, tolerance, abs_lt]),
    secantLoop_return 0 (41005100210003 / 29003600150002)
        (57711950990041000850007 / 40808450700029000600005)
        (4733668307350833775132312669207920041 / 3347208960761317489522848473205600029)
        (by norm_num [sqrtTwoF]) (by norm_num [sqrtTwoF]) (by norm_num)
        (by norm_num [converged, sqrtTwoF, tolerance, abs_lt])]

theorem open_methods_domain_guard_witness :
    (0 ≤ (665857 / 470832 : ℚ) ∧ (665857 / 470832 : ℚ) ≤ 2) ∧
    (0 ≤ (4733668307350833775132312669207920041 /
        3347208960761317489522848473205600029 : ℚ) ∧
      (4733668307350833775132312669207920041 /
        3347208960761317489522848473205600029 : ℚ) ≤ 2) ∧
    newtonLoop sqrtTwoF sqrtTwoG 0 1 100 1 = none ∧
    secantLoop sqrtTwoF 0 1 100 (1, 1 + 1e-4).1 (1, 1 + 1e-4).2 = none ∧
    ((newton_raphson sqrtTwoF sqrtTwoG 2 0 1 7).1 = false ∧
      (secant sqrtTwoF 2 0 1 7).1 = false) :=
  ⟨(open_methods_domain_guard sqrtTwoF sqrtTwoG 0 2 1 7).1 _
      (newton_raphson_of_some (newtonLoop_fuel_mono (by decide) newtonLoop_sqrtTwo_four)),
   (open_methods_domain_guard sqrtTwoF sqrtTwoG 0 2 1 7).2.1 _
      (secant_of_some (secantLoop_fuel_mono (by decide) secantLoop_sqrtTwo_five)),
   (open_methods_domain_guard sqrtTwoF sqrtTwoG 0 1 1 7).2.2.1 100 1
      (Or.inr (by norm_num [newtonUpdate, sqrtTwoF, sqrtTwoG])),
   (open_methods_domain_guard sqrtTwoF sqrtTwoG 0 1 1 7).2.2.2.1 100 (1, 1 + 1e-4)
      (Or.inr (by norm_num [secantUpdate, sqrtTwoF])),
   (open_methods_domain_guard sqrtTwoF sqrtTwoG 2 0 1 7).2.2.2.2 (by norm_num)⟩

/-! ## C5, C6: the square root of two -/

theorem near_sqrt_two {r : ℝ} (hr : 0 ≤ r - 1e-6) (hlo : (r - 1e-6) ^ 2 < 2)
    (hhi : 2 < (r + 1e-6) ^ 2) : |r - Real.sqrt 2| < 1e-6 := by
  have h1 : r - 1e-6 < Real.sqrt 2 := (Real.lt_sqrt hr).mpr hlo
  have h2 : Real.sqrt 2 < r + 1e-6 :=
    (Real.sqrt_lt' (by linarith : (0 : ℝ) < r + 1e-6)).mpr hhi
  rw [abs_sub_lt_iff]
  constructor <;> linarith

/-- C5: `newton_raphson` on `f(x) = x² − 2`, `g(x) = 2x`, `a = 0`, `b = 2`,
`c = 1` returns success; the loop returns in its fourth iteration (four
iterations suffice, three do not), fewer than the cap of 100; and the root
is within `1e-6` of `√2`. -/
theorem newton_sqrt_two (root : ℚ) :
    newton_raphson sqrtTwoF sqrtTwoG 0 2 1 root = (true, 665857 / 470832) ∧
    newtonLoop sqrtTwoF sqrtTwoG 0 2 4 1 = some (665857 / 470832) ∧
    newtonLoop sqrtTwoF sqrtTwoG 0 2 3 1 = none ∧
    4 < max_iter ∧
    |(((665857 / 470832 : ℚ)) : ℝ) - Real.sqrt 2| < 1e-6 := by
  refine ⟨newton_raphson_of_some (newtonLoop_fuel_mono (by decide) newtonLoop_sqrtTwo_four),
    newtonLoop_sqrtTwo_four, newtonLoop_sqrtTwo_three, by decide, ?_⟩
  apply near_sqrt_two <;> norm_num

/-- C6: `secant` on `f(x) = x² − 2`, `a = 0`, `b = 2`, `c = 1`, seeded with
`x_prev = 1` and `x_curr = 1 + 1e-4`, returns success (in its fifth
iteration) with a root within `1e-6` of `√2`, the root Newton-Raphson
approximates; the routine takes no derivative. -/
theorem secant_sqrt_two (root : ℚ) :
    secant sqrtTwoF 0 2 1 root =
      (true, 4733668307350833775132312669207920041 /
        3347208960761317489522848473205600029) ∧
    secantLoop sqrtTwoF 0 2 5 1 (1 + 1e-4) =
      some (4733668307350833775132312669207920041 /
        3347208960761317489522848473205600029) ∧
    secantLoop sqrtTwoF 0 2 4 1 (1 + 1e-4) = none ∧
    |(((4733668307350833775132312669207920041 /
        3347208960761317489522848473205600029 : ℚ)) : ℝ) - Real.sqrt 2| < 1e-6 := by
  refine ⟨secant_of_some (secantLoop_fuel_mono (by decide) secantLoop_sqrtTwo_five),
    secantLoop_sqrtTwo_five, secantLoop_sqrtTwo_four, ?_⟩
  apply near_sqrt_two <;> norm_num

/-! ## C8, C9: how the open methods leave their loop -/

theorem newtonLoop_none_of_never_converged {f g : α → α} {a b : α} :
    ∀ (n : Nat) (c : α),
      (∀ k, k < n →
        ¬ converged f ((newtonUpdate f g)^[k] c) ((newtonUpdate f g)^[k + 1] c)) →
      newtonLoop f g a b n c = none := by
  intro n
  induction n with
  | zero => intro c _; rfl
  | succ n ih =>
    intro c h
    rw [newtonLoop]
    simp only
    split_ifs with h1 h2 h3
    · rfl
    · rfl
    · exact absurd h3 (h 0 (Nat.succ_pos n))
    · exact ih _ fun k hk => h (k + 1) (Nat.succ_lt_succ hk)

theorem secantLoop_none_of_never_converged {f : α → α} {a b : α} :
    ∀ (n : Nat) (p : α × α),
      (∀ k, k < n →
        ¬ converged f ((secantUpdate f)^[k] p).2 ((secantUpdate f)^[k + 1] p).2) →
      secantLoop f a b n p.1 p.2 = none := by
  intro n
  induction n with
  | zero => intro p _; rfl
  | succ n ih =>
    intro p h
    rw [secantLoop]
    simp only
    split_ifs with h1 h2 h3
    · rfl
    · rfl
    · exact absurd h3 (h 0 (Nat.succ_pos n))
    · exact ih (secantUpdate f p) fun k hk => h (k + 1) (Nat.succ_lt_succ hk)

/-- C8: when none of the first 100 Newton updates hits a zero derivative,
leaves `[a, b]` or meets the convergence test, `newton_raphson` returns
failure; likewise `secant` when none of its first 100 updates has a zero
denominator, leaves `[a, b]` or meets the convergence test. -/
theorem open_methods_cap_exhaustion_fails (f g : α → α) (a b c root : α) :
    ((∀ k, k < 100 →
        g ((newtonUpdate f g)^[k] c) ≠ 0 ∧
        (a ≤ (newtonUpdate f g)^[k + 1] c ∧ (newtonUpdate f g)^[k + 1] c ≤ b) ∧
        ¬ converged f ((newtonUpdate f g)^[k] c) ((newtonUpdate f g)^[k + 1] c)) →
      (newton_raphson f g a b c root).1 = false) ∧
    ((∀ k, k < 100 →
        f ((secantUpdate f)^[k] (c, c + 1e-4)).2 -
          f ((secantUpdate f)^[k] (c, c + 1e-4)).1 ≠ 0 ∧
        (a ≤ ((secantUpdate f)^[k + 1] (c, c + 1e-4)).2 ∧
          ((secantUpdate f)^[k + 1] (c, c + 1e-4)).2 ≤ b) ∧
        ¬ converged f ((secantUpdate f)^[k] (c, c + 1e-4)).2
          ((secantUpdate f)^[k + 1] (c, c + 1e-4)).2) →
      (secant f a b c root).1 = false) := by
  constructor
  · intro h
    rw [newton_raphson_of_none
      (newtonLoop_none_of_never_converged max_iter c fun k hk => (h k hk).2.2)]
  · intro h
    rw [secant_of_none
      (secantLoop_none_of_never_converged max_iter (c, c + 1e-4) fun k hk => (h k hk).2.2)]

theorem newtonLoop_some_iterate {f g : α → α} {a b : α} :
    ∀ (n : Nat) (c r : α), newtonLoop f g a b n c = some r →
      ∃ k, k < n ∧
        g ((newtonUpdate f g)^[k] c) ≠ 0 ∧
        r = newtonUpdate f g ((newtonUpdate f g)^[k] c) ∧
        (|r - (newtonUpdate f g)^[k] c| < tolerance ∨ |f r| < tolerance) ∧
        ∀ j, j < k →
          ¬ (|(newtonUpdate f g)^[j + 1] c - (newtonUpdate f g)^[j] c| < tolerance ∨
              |f ((newtonUpdate f g)^[j + 1] c)| < tolerance) := by
  intro n
  induction n with
  | zero => intro c r h; simp [newtonLoop] at h
  | succ n ih =>
    intro c r h
    rw [newtonLoop] at h
    simp only at h
    split_ifs at h with h1 h2 h3
    · simp only [Option.some.injEq] at h
      subst h
      exact ⟨0, Nat.succ_pos n, h1, rfl, h3, fun j hj => absurd hj (Nat.not_lt_zero j)⟩
    · obtain ⟨k, hk, hg, hr, hc, hfirst⟩ := ih _ _ h
      refine ⟨k + 1, Nat.succ_lt_succ hk, hg, hr, hc, fun j hj => ?_⟩
      cases j with
      | zero => exact h3
      | succ j => exact hfirst j (Nat.lt_of_succ_lt_succ hj)

/-- C9: whenever `newton_raphson` returns success with root `r`, some iterate
`x` reached from `c` by `k ≤ 99` Newton updates has `g x ≠ 0`,
`r = x − f x / g x` and `|r − x| < 1e-6 ∨ |f r| < 1e-6`, and the test fails
at every earlier Newton iterate, so `r` is the first iterate that meets it. -/
theorem newton_success_first_converged (f g : α → α) (a b c root r : α)
    (h : newton_raphson f g a b c root = (true, r)) :
    ∃ k, k ≤ 99 ∧
      g ((newtonUpdate f g)^[k] c) ≠ 0 ∧
      r = (newtonUpdate f g)^[k] c - f ((newtonUpdate f g)^[k] c) / g ((newtonUpdate f g)^[k] c) ∧
      (|r - (newtonUpdate f g)^[k] c| < 1e-6 ∨ |f r| < 1e-6) ∧
      ∀ j, j < k →
        ¬ (|(newtonUpdate f g)^[j + 1] c - (newtonUpdate f g)^[j] c| < 1e-6 ∨
            |f ((newtonUpdate f g)^[j + 1] c)| < 1e-6) := by
  obtain ⟨k, hk, hg, hr, hc, hfirst⟩ :=
    newtonLoop_some_iterate _ _ _ (newtonLoop_of_newton_raphson h)
  exact ⟨k, Nat.le_of_lt_succ hk, hg, hr, hc, hfirst⟩

theorem newton_success_first_converged_witness :
    ∃ k, k ≤ 99 ∧
      sqrtTwoG ((newtonUpdate sqrtTwoF sqrtTwoG)^[k] 1) ≠ 0 ∧
      (665857 / 470832 : ℚ) = (newtonUpdate sqrtTwoF sqrtTwoG)^[k] 1 -
        sqrtTwoF ((newtonUpdate sqrtTwoF sqrtTwoG)^[k] 1) /
          sqrtTwoG ((newtonUpdate sqrtTwoF sqrtTwoG)^[k] 1) ∧
      (|(665857 / 470832 : ℚ) - (newtonUpdate sqrtTwoF sqrtTwoG)^[k] 1| < 1e-6 ∨
        |sqrtTwoF (665857 / 470832 : ℚ)| < 1e-6) ∧
      ∀ j, j < k →
        ¬ (|(newtonUpdate sqrtTwoF sqrtTwoG)^[j + 1] 1 -
              (newtonUpdate sqrtTwoF sqrtTwoG)^[j] 1| < 1e-6 ∨
            |sqrtTwoF ((newtonUpdate sqrtTwoF sqrtTwoG)^[j + 1] 1)| < 1e-6) :=
  newton_success_first_converged sqrtTwoF sqrtTwoG 0 2 1 7 (665857 / 470832)
    (newton_raphson_of_some (newtonLoop_fuel_mono (by decide) newtonLoop_sqrtTwo_four))

theorem cycle_update_zero : newtonUpdate cycleF cycleG 0 = 1 := by
  norm_num [newtonUpdate, cycleF, cycleG]

theorem cycle_update_one : newtonUpdate cycleF cycleG 1 = 0 := by
  norm_num [newtonUpdate, cycleF, cycleG]

theorem cycle_iterate (m : Nat) :
    (newtonUpdate cycleF cycleG)^[2 * m] 0 = 0 ∧
    (newtonUpdate cycleF cycleG)^[2 * m + 1] 0 = 1 := by
  induction m with
  | zero => exact ⟨rfl, cycle_update_zero⟩
  | succ m ih =>
    have h0 : (newtonUpdate cycleF cycleG)^[2 * (m + 1)] 0 = 0 := by
      rw [show 2 * (m + 1) = (2 * m + 1) + 1 from by ring, Function.iterate_succ_apply',
        ih.2, cycle_update_one]
    refine ⟨h0, ?_⟩
    rw [Function.iterate_succ_apply', h0, cycle_update_zero]

theorem cycle_never_converges (k : Nat) :
    cycleG ((newtonUpdate cycleF cycleG)^[k] 0) ≠ 0 ∧
    (-1 ≤ (newtonUpdate cycleF cycleG)^[k + 1] 0 ∧
      (newtonUpdate cycleF cycleG)^[k + 1] 0 ≤ 2) ∧
    ¬ converged cycleF ((newtonUpdate cycleF cycleG)^[k] 0)
      ((newtonUpdate cycleF cycleG)^[k + 1] 0) := by
  rcases Nat.even_or_odd' k with ⟨m, rfl | rfl⟩
  · rw [(cycle_iterate m).1, (cycle_iterate m).2]
    norm_num [converged, cycleF, cycleG, tolerance, abs_lt]
  · rw [show 2 * m + 1 + 1 = 2 * (m + 1) from by ring, (cycle_iterate m).2,
      (cycle_iterate (m + 1)).1]
    norm_num [converged, cycleF, cycleG, tolerance, abs_lt]

theorem recip_secant_formula {K u v : ℚ} (hK : K ≠ 0) (hu : 1 ≤ u) (huv : u < v) :
    v - K / v * (v - u) / (K / v - K / u) = u + v := by
  have hu0 : u ≠ 0 := by linarith
  have hv0 : v ≠ 0 := by linarith
  have huv' : u - v ≠ 0 := by linarith
  have hden : K / v - K / u = K * (u - v) / (u * v) := by
    field_simp
    ring
  rw [hden]
  field_simp
  ring

theorem recip_update {u v : ℚ} (hu : 1 ≤ u) (huv : u < v) :
    secantUpdate recipF (u, v) = (v, u + v) := by
  simp only [secantUpdate, recipF, Prod.mk.injEq, true_and]
  exact recip_secant_formula (pow_ne_zero 101 two_ne_zero) hu huv

theorem recip_iterate_bounds (k : Nat) :
    1 ≤ ((secantUpdate recipF)^[k] (1, 1 + 1e-4)).1 ∧
    ((secantUpdate recipF)^[k] (1, 1 + 1e-4)).1 <
      ((secantUpdate recipF)^[k] (1, 1 + 1e-4)).2 ∧
    ((secantUpdate recipF)^[k] (1, 1 + 1e-4)).2 ≤ 2 ^ (k + 1) := by
  induction k with
  | zero => norm_num
  | succ k ih =>
    obtain ⟨h1, h2, h3⟩ := ih
    rw [Function.iterate_succ_apply']
    have hp : (secantUpdate recipF)^[k] (1, 1 + 1e-4) =
        (((secantUpdate recipF)^[k] (1, 1 + 1e-4)).1,
          ((secantUpdate recipF)^[k] (1, 1 + 1e-4)).2) := rfl
    rw [hp, recip_update h1 h2]
    refine ⟨by linarith, by simp only; linarith, ?_⟩
    simp only
    rw [pow_succ]
    linarith

theorem recip_never_converges (k : Nat) (hk : k < 100) :
    recipF ((secantUpdate recipF)^[k] (1, 1 + 1e-4)).2 -
      recipF ((secantUpdate recipF)^[k] (1, 1 + 1e-4)).1 ≠ 0 ∧
    (0 ≤ ((secantUpdate recipF)^[k + 1] (1, 1 + 1e-4)).2 ∧
      ((secantUpdate recipF)^[k + 1] (1, 1 + 1e-4)).2 ≤ 2 ^ 101) ∧
    ¬ converged recipF ((secantUpdate recipF)^[k] (1, 1 + 1e-4)).2
      ((secantUpdate recipF)^[k + 1] (1, 1 + 1e-4)).2 := by
  obtain ⟨h1, h2, h3⟩ := recip_iterate_bounds k
  have hp : (secantUpdate recipF)^[k] (1, 1 + 1e-4) =
      (((secantUpdate recipF)^[k] (1, 1 + 1e-4)).1,
        ((secantUpdate recipF)^[k] (1, 1 + 1e-4)).2) := rfl
  have hnext : ((secantUpdate recipF)^[k + 1] (1, 1 + 1e-4)).2 =
      ((secantUpdate recipF)^[k] (1, 1 + 1e-4)).1 +
        ((secantUpdate recipF)^[k] (1, 1 + 1e-4)).2 := by
    rw [Function.iterate_succ_apply', hp, recip_update h1 h2]
  rw [hnext]
  generalize ((secantUpdate recipF)^[k] (1, 1 + 1e-4)).1 = u at h1 h2 h3 ⊢
  generalize ((secantUpdate recipF)^[k] (1, 1 + 1e-4)).2 = v at h2 h3 ⊢
  have hpow : (2 : ℚ) ^ (k + 1) * 2 ≤ 2 ^ 101 := by
    rw [← pow_succ]
    exact pow_le_pow_right₀ (by norm_num) (by omega)
  have hK : (0 : ℚ) < 2 ^ 101 := by positivity
  have hsum : u + v ≤ 2 ^ 101 := by linarith
  simp only [recipF, converged, tolerance]
  generalize (2 : ℚ) ^ 101 = K at hK hsum ⊢
  refine ⟨?_, ⟨by linarith, hsum⟩, ?_⟩
  · have : K / v < K / u := div_lt_div_of_pos_left hK (by linarith) h2
    exact sub_ne_zero.mpr (ne_of_lt this)
  · have hres : 1 ≤ K / (u + v) := (one_le_div (by linarith)).mpr hsum
    rw [not_or, not_lt, not_lt, add_sub_cancel_right, abs_of_pos (by linarith),
      abs_of_pos (by linarith)]
    constructor
    · exact le_trans (by norm_num) h1
    · exact le_trans (by norm_num) hres

theorem open_methods_cap_exhaustion_fails_witness :
    (newton_raphson cycleF cycleG (-1) 2 0 7).1 = false ∧
    (secant recipF 0 (2 ^ 101) 1 7).1 = false :=
  ⟨(open_methods_cap_exhaustion_fails cycleF cycleG (-1) 2 0 7).1
      (fun k _ => cycle_never_converges k),
   (open_methods_cap_exhaustion_fails recipF recipF 0 (2 ^ 101) 1 7).2
      (fun k hk => recip_never_converges k hk)⟩

/-! ## C3: the bracketing routines on a sign change -/

theorem bisectionStep_ret {f : α → α} {s : BisectState α} {r : α}
    (h : bisectionStep f s = LoopStep.ret r) :
    r = (s.a + s.b) / 2 ∧ |f r| < tolerance := by
  unfold bisectionStep at h
  simp only at h
  split_ifs at h with h1 h2
  · simp only [LoopStep.ret.injEq] at h
    subst h
    exact ⟨rfl, h1⟩

theorem bisectionStep_next {f : α → α} {s s' : BisectState α}
    (h : bisectionStep f s = LoopStep.next s') :
    ¬ |f ((s.a + s.b) / 2)| < tolerance := by
  unfold bisectionStep at h
  simp only at h
  split_ifs at h with h1 h2
  · exact h1
  · exact h1

theorem bisectionLoop_spec {f : α → α} :
    ∀ (n : Nat) (s : BisectState α),
      (bisectionIter f n s = none → |f (bisectionLoop f n s)| < tolerance) ∧
      (∀ s', bisectionIter f n s = some s' →
        bisectionLoop f n s = (s'.a + s'.b) / 2) := by
  intro n
  induction n with
  | zero =>
    intro s
    refine ⟨fun h => by simp [bisectionIter] at h, fun s' h => ?_⟩
    simp only [bisectionIter, Option.some.injEq] at h
    subst h
    simp only [bisectionLoop]
    norm_num
    ring
  | succ n ih =>
    intro s
    rw [bisectionIter, bisectionLoop]
    cases hs : bisectionStep f s with
    | ret r =>
      simp only
      exact ⟨fun _ => (bisectionStep_ret hs).2, fun s' h => by simp at h⟩
    | next s1 =>
      simp only
      exact ih s1

theorem bisectionIter_earlier {f : α → α} :
    ∀ (n : Nat) (s s' : BisectState α), bisectionIter f n s = some s' →
      ∀ k, k < n → ∃ sk, bisectionIter f k s = some sk ∧
        ¬ |f ((sk.a + sk.b) / 2)| < tolerance := by
  intro n
  induction n with
  | zero => intro s s' _ k hk; exact absurd hk (Nat.not_lt_zero k)
  | succ n ih =>
    intro s s' h k hk
    rw [bisectionIter] at h
    cases hs : bisectionStep f s with
    | ret r => simp [hs] at h
    | next s1 =>
      simp only [hs] at h
      cases k with
      | zero => exact ⟨s, rfl, bisectionStep_next hs⟩
      | succ k =>
        obtain ⟨sk, hsk, hnot⟩ := ih s1 s' h k (Nat.lt_of_succ_lt_succ hk)
        exact ⟨sk, by rw [bisectionIter, hs]; exact hsk, hnot⟩

theorem regulaFalsiStep_ret {f : α → α} {s : FalsiState α} {r : α}
    (h : regulaFalsiStep f s = LoopStep.ret r) :
    r = falsePosition s ∧ |f r| < tolerance := by
  unfold regulaFalsiStep at h
  simp only at h
  split_ifs at h with h1 h2
  · simp only [LoopStep.ret.injEq] at h
    subst h
    exact ⟨rfl, h1⟩

theorem regulaFalsiStep_next {f : α → α} {s s' : FalsiState α}
    (h : regulaFalsiStep f s = LoopStep.next s') :
    ¬ |f (falsePosition s)| < tolerance := by
  unfold regulaFalsiStep at h
  simp only at h
  split_ifs at h with h1
  all_goals exact h1

theorem regulaFalsiLoop_spec {f : α → α} :
    ∀ (n : Nat) (s : FalsiState α),
      (regulaFalsiIter f n s = none → |f (regulaFalsiLoop f n s)| < tolerance) ∧
      (∀ s', regulaFalsiIter f n s = some s' →
        regulaFalsiLoop f n s = s'.a - s'.fa * (s'.b - s'.a) / (s'.fb - s'.fa)) := by
  intro n
  induction n with
  | zero =>
    intro s
    refine ⟨fun h => by simp [regulaFalsiIter] at h, fun s' h => ?_⟩
    simp only [regulaFalsiIter, Option.some.injEq] at h
    subst h
    rfl
  | succ n ih =>
    intro s
    rw [regulaFalsiIter, regulaFalsiLoop]
    cases hs : regulaFalsiStep f s with
    | ret r =>
      simp only
      exact ⟨fun _ => (regulaFalsiStep_ret hs).2, fun s' h => by simp at h⟩
    | next s1 =>
      simp only
      exact ih s1

theorem regulaFalsiIter_earlier {f : α → α} :
    ∀ (n : Nat) (s s' : FalsiState α), regulaFalsiIter f n s = some s' →
      ∀ k, k < n → ∃ sk, regulaFalsiIter f k s = some sk ∧
        ¬ |f (sk.a - sk.fa * (sk.b - sk.a) / (sk.fb - sk.fa))| < tolerance := by
  intro n
  induction n with
  | zero => intro s s' _ k hk; exact absurd hk (Nat.not_lt_zero k)
  | succ n ih =>
    intro s s' h k hk
    rw [regulaFalsiIter] at h
    cases hs : regulaFalsiStep f s with
    | ret r => simp [hs] at h
    | next s1 =>
      simp only [hs] at h
      cases k with
      | zero => exact ⟨s, rfl, regulaFalsiStep_next hs⟩
      | succ k =>
        obtain ⟨sk, hsk, hnot⟩ := ih s1 s' h k (Nat.lt_of_succ_lt_succ hk)
        exact ⟨sk, by rw [regulaFalsiIter, hs]; exact hsk, hnot⟩

/-- C3: when `f a * f b < 0` both bracketing routines return success.  If a
pass of the loop returned, the root `r` has `|f r| < 1e-6`.  Otherwise all
500 passes ran, no computed point met the tolerance, and `r` is the
arithmetic midpoint of the final bracket for `bisection`, and the
false-position point `a − fa·(b − a)/(fb − fa)` of the final bracket and
cached values for `regula_falsi`. -/
theorem bracketing_sign_change_succeeds (f : α → α) (a b root : α)
    (h : f a * f b < 0) :
    (∃ r, bisection f a b root = (true, r) ∧
      (bisectionIter f 500 { a := a, b := b, fa := f a, fb := f b } = none →
        |f r| < 1e-6) ∧
      (∀ s, bisectionIter f 500 { a := a, b := b, fa := f a, fb := f b } = some s →
        r = (s.a + s.b) / 2 ∧
        ∀ k, k < 500 →
          ∃ sk, bisectionIter f k { a := a, b := b, fa := f a, fb := f b } = some sk ∧
            ¬ |f ((sk.a + sk.b) / 2)| < 1e-6)) ∧
    (∃ r, regula_falsi f a b root = (true, r) ∧
      (regulaFalsiIter f 500
          { a := a, b := b, fa := f a, fb := f b, count_a := 0, count_b := 0 } = none →
        |f r| < 1e-6) ∧
      (∀ s, regulaFalsiIter f 500
          { a := a, b := b, fa := f a, fb := f b, count_a := 0, count_b := 0 } = some s →
        r = s.a - s.fa * (s.b - s.a) / (s.fb - s.fa) ∧
        ∀ k, k < 500 →
          ∃ sk, regulaFalsiIter f k
              { a := a, b := b, fa := f a, fb := f b, count_a := 0, count_b := 0 } =
                some sk ∧
            ¬ |f (sk.a - sk.fa * (sk.b - sk.a) / (sk.fb - sk.fa))| < 1e-6)) := by
  have ha : f a ≠ 0 := fun h0 => by simp [h0] at h
  have hb : f b ≠ 0 := fun h0 => by simp [h0] at h
  have hpos : ¬ f a * f b > 0 := not_lt.mpr h.le
  constructor
  · refine ⟨bisectionLoop f max_cap { a := a, b := b, fa := f a, fb := f b }, ?_, ?_, ?_⟩
    · simp [bisection, ha, hb, hpos]
    · exact (bisectionLoop_spec max_cap _).1
    · intro s hs
      exact ⟨(bisectionLoop_spec max_cap _).2 s hs, bisectionIter_earlier max_cap _ s hs⟩
  · refine ⟨regulaFalsiLoop f max_cap
      { a := a, b := b, fa := f a, fb := f b, count_a := 0, count_b := 0 }, ?_, ?_, ?_⟩
    · simp [regula_falsi, ha, hb, hpos]
    · exact (regulaFalsiLoop_spec max_cap _).1
    · intro s hs
      exact ⟨(regulaFalsiLoop_spec max_cap _).2 s hs, regulaFalsiIter_earlier max_cap _ s hs⟩

theorem bracketing_sign_change_succeeds_witness :
    sqrtTwoF 0 * sqrtTwoF 2 < 0 ∧
    (∃ r, bisection sqrtTwoF 0 2 7 = (true, r) ∧
      (bisectionIter sqrtTwoF 500
          { a := 0, b := 2, fa := sqrtTwoF 0, fb := sqrtTwoF 2 } = none →
        |sqrtTwoF r| < 1e-6) ∧
      (∀ s, bisectionIter sqrtTwoF 500
          { a := 0, b := 2, fa := sqrtTwoF 0, fb := sqrtTwoF 2 } = some s →
        r = (s.a + s.b) / 2 ∧
        ∀ k, k < 500 →
          ∃ sk, bisectionIter sqrtTwoF k
              { a := 0, b := 2, fa := sqrtTwoF 0, fb := sqrtTwoF 2 } = some sk ∧
            ¬ |sqrtTwoF ((sk.a + sk.b) / 2)| < 1e-6)) :=
  ⟨by norm_num [sqrtTwoF],
   (bracketing_sign_change_succeeds sqrtTwoF 0 2 7 (by norm_num [sqrtTwoF])).1⟩


/-! ## C11: the bracket invariant of bisection -/

theorem tolerance_pos : (0 : α) < tolerance := by
  unfold tolerance
  norm_num

theorem bisectionStep_next_cases {f : α → α} {s s' : BisectState α}
    (h : bisectionStep f s = LoopStep.next s') :
    ¬ |f ((s.a + s.b) / 2)| < tolerance ∧
    ((s.fa * f ((s.a + s.b) / 2) < 0 ∧
        s' = { a := s.a, b := (s.a + s.b) / 2, fa := s.fa, fb := f ((s.a + s.b) / 2) }) ∨
      (¬ s.fa * f ((s.a + s.b) / 2) < 0 ∧
        s' = { a := (s.a + s.b) / 2, b := s.b, fa := f ((s.a + s.b) / 2), fb := s.fb })) := by
  unfold bisectionStep at h
  simp only at h
  split_ifs at h with h1 h2
  · simp only [LoopStep.next.injEq] at h
    exact ⟨h1, Or.inl ⟨h2, h.symm⟩⟩
  · simp only [LoopStep.next.injEq] at h
    exact ⟨h1, Or.inr ⟨h2, h.symm⟩⟩

theorem bisectionIter_succ_iff {f : α → α} :
    ∀ (k : Nat) (s0 s' : BisectState α),
      bisectionIter f (k + 1) s0 = some s' ↔
        ∃ s, bisectionIter f k s0 = some s ∧ bisectionStep f s = LoopStep.next s' := by
  intro k
  induction k with
  | zero =>
    intro s0 s'
    cases hs : bisectionStep f s0 with
    | ret r => simp [bisectionIter, hs]
    | next s1 => simp [bisectionIter, hs]
  | succ k ih =>
    intro s0 s'
    cases hs : bisectionStep f s0 with
    | ret r => simp [bisectionIter, hs]
    | next s1 =>
      have h1 : bisectionIter f (k + 1 + 1) s0 = bisectionIter f (k + 1) s1 := by
        rw [bisectionIter, hs]
      have h2 : bisectionIter f (k + 1) s0 = bisectionIter f k s1 := by
        rw [bisectionIter, hs]
      rw [h1, h2]
      exact ih s1 s'

theorem sign_transfer {x y m : α} (hxy : x * y < 0) (hm : m ≠ 0) (h : ¬ x * m < 0) :
    m * y < 0 := by
  have hxm : 0 ≤ x * m := not_lt.mp h
  rcases mul_neg_iff.mp hxy with ⟨hx, hy⟩ | ⟨hx, hy⟩
  · rcases lt_or_gt_of_ne hm with hm' | hm'
    · exact absurd (mul_neg_of_pos_of_neg hx hm') (not_lt.mpr hxm)
    · exact mul_neg_of_pos_of_neg hm' hy
  · rcases lt_or_gt_of_ne hm with hm' | hm'
    · exact mul_neg_of_neg_of_pos hm' hy
    · exact absurd (mul_neg_of_neg_of_pos hx hm') (not_lt.mpr hxm)

theorem ne_zero_of_not_abs_lt_tolerance {m : α} (h : ¬ |m| < tolerance) : m ≠ 0 := by
  intro h0
  apply h
  rw [h0, abs_zero]
  exact tolerance_pos

theorem bisectionStep_next_halves {f : α → α} {s s' : BisectState α}
    (h : bisectionStep f s = LoopStep.next s') :
    (s'.a = s.a ∧ s'.b = (s.a + s.b) / 2) ∨ (s'.a = (s.a + s.b) / 2 ∧ s'.b = s.b) := by
  rcases (bisectionStep_next_cases h).2 with ⟨_, rfl⟩ | ⟨_, rfl⟩
  · exact Or.inl ⟨rfl, rfl⟩
  · exact Or.inr ⟨rfl, rfl⟩

theorem bisectionStep_next_sign {f : α → α} {s s' : BisectState α}
    (h : bisectionStep f s = LoopStep.next s')
    (hfa : s.fa = f s.a) (hfb : s.fb = f s.b) (hs : f s.a * f s.b < 0) :
    s'.fa = f s'.a ∧ s'.fb = f s'.b ∧ f s'.a * f s'.b < 0 := by
  obtain ⟨htol, hcase⟩ := bisectionStep_next_cases h
  rcases hcase with ⟨hlt, rfl⟩ | ⟨hge, rfl⟩
  · refine ⟨hfa, rfl, ?_⟩
    rw [hfa] at hlt
    exact hlt
  · refine ⟨rfl, hfb, ?_⟩
    rw [hfa] at hge
    exact sign_transfer hs (ne_zero_of_not_abs_lt_tolerance htol) hge

theorem half_between (x y : α) :
    min x y ≤ (x + y) / 2 ∧ (x + y) / 2 ≤ max x y := by
  rcases le_total x y with hxy | hxy
  · rw [min_eq_left hxy, max_eq_right hxy]
    constructor <;> linarith
  · rw [min_eq_right hxy, max_eq_left hxy]
    constructor <;> linarith

theorem bisectionStep_next_geometry {f : α → α} {s s' : BisectState α}
    (h : bisectionStep f s = LoopStep.next s') :
    |s'.b - s'.a| = |s.b - s.a| / 2 ∧
    min s.a s.b ≤ min s'.a s'.b ∧ max s'.a s'.b ≤ max s.a s.b := by
  obtain ⟨hlo, hhi⟩ := half_between s.a s.b
  rcases bisectionStep_next_halves h with ⟨ha, hb⟩ | ⟨ha, hb⟩
  · rw [ha, hb]
    refine ⟨?_, le_min (min_le_left _ _) hlo, max_le (le_max_left _ _) hhi⟩
    rw [show (s.a + s.b) / 2 - s.a = (s.b - s.a) / 2 from by ring, abs_div, abs_two]
  · rw [ha, hb]
    refine ⟨?_, le_min hlo (min_le_right _ _), max_le hhi (le_max_right _ _)⟩
    rw [show s.b - (s.a + s.b) / 2 = (s.b - s.a) / 2 from by ring, abs_div, abs_two]

theorem bisectionIter_invariant {f : α → α} {a b : α} (h : f a * f b < 0) :
    ∀ (k : Nat) (s : BisectState α),
      bisectionIter f k { a := a, b := b, fa := f a, fb := f b } = some s →
      s.fa = f s.a ∧ s.fb = f s.b ∧ f s.a * f s.b < 0 := by
  intro k
  induction k with
  | zero =>
    intro s hs
    simp only [bisectionIter, Option.some.injEq] at hs
    subst hs
    exact ⟨rfl, rfl, h⟩
  | succ k ih =>
    intro s hs
    obtain ⟨s1, hs1, hstep⟩ := (bisectionIter_succ_iff k _ s).mp hs
    obtain ⟨hfa, hfb, hsign⟩ := ih s1 hs1
    exact bisectionStep_next_sign hstep hfa hfb hsign

theorem bisectionIter_geometry {f : α → α} {a b fa fb : α} :
    ∀ (k : Nat) (s : BisectState α),
      bisectionIter f k { a := a, b := b, fa := fa, fb := fb } = some s →
      |s.b - s.a| = |b - a| / 2 ^ k ∧
      min a b ≤ min s.a s.b ∧ max s.a s.b ≤ max a b := by
  intro k
  induction k with
  | zero =>
    intro s hs
    simp only [bisectionIter, Option.some.injEq] at hs
    subst hs
    simp
  | succ k ih =>
    intro s hs
    obtain ⟨s1, hs1, hstep⟩ := (bisectionIter_succ_iff k _ s).mp hs
    obtain ⟨hw, hlo, hhi⟩ := ih s1 hs1
    obtain ⟨hw', hlo', hhi'⟩ := bisectionStep_next_geometry hstep
    refine ⟨?_, hlo.trans hlo', hhi'.trans hhi⟩
    rw [hw', hw, pow_succ]
    field_simp

/-- C11: in `bisection` started with `f a * f b < 0`, the state after `k`
narrowing steps (the state at the start of iteration `k`, and for `k = 500`
the state at cap exhaustion) has `fa = f a`, `fb = f b` and
`f a * f b < 0`; its bracket has width `|b₀ − a₀| / 2^k` and is nested in the
original interval; and the next bracket is one of its two halves. -/
theorem bisection_bracket_invariant (f : α → α) (a b : α) (h : f a * f b < 0)
    (k : Nat) (s : BisectState α)
    (hs : bisectionIter f k { a := a, b := b, fa := f a, fb := f b } = some s) :
    (s.fa = f s.a ∧ s.fb = f s.b) ∧
    f s.a * f s.b < 0 ∧
    |s.b - s.a| = |b - a| / 2 ^ k ∧
    (min a b ≤ min s.a s.b ∧ max s.a s.b ≤ max a b) ∧
    (∀ s', bisectionIter f (k + 1) { a := a, b := b, fa := f a, fb := f b } = some s' →
      (s'.a = s.a ∧ s'.b = (s.a + s.b) / 2) ∨
      (s'.a = (s.a + s.b) / 2 ∧ s'.b = s.b)) := by
  obtain ⟨hfa, hfb, hsign⟩ := bisectionIter_invariant h k s hs
  obtain ⟨hw, hnest⟩ := bisectionIter_geometry k s hs
  refine ⟨⟨hfa, hfb⟩, hsign, hw, hnest, fun s' hs' => ?_⟩
  obtain ⟨s1, hs1, hstep⟩ := (bisectionIter_succ_iff k _ s').mp hs'
  rw [hs] at hs1
  simp only [Option.some.injEq] at hs1
  subst hs1
  exact bisectionStep_next_halves hstep

/-! ## Bisection on the steep line: all 500 iterations run -/

theorem steep_step_left {K p : α} (hp : 0 < p) (hK : 2 * p ≤ K) :
    ¬ |K * ((-1 / p + 2 / p) / 2)| < tolerance ∧
    K * (-1 / p) * (K * ((-1 / p + 2 / p) / 2)) < 0 := by
  have hmid : (-1 / p + 2 / p) / 2 = 1 / (2 * p) := by
    field_simp
    ring
  have hK0 : 0 < K := lt_of_lt_of_le (by positivity) hK
  have h1 : 1 ≤ K * (1 / (2 * p)) := by
    rw [mul_one_div, one_le_div (by positivity)]
    exact hK
  rw [hmid]
  constructor
  · rw [not_lt, abs_of_pos (by linarith)]
    exact le_trans (le_of_lt (by unfold tolerance; norm_num)) h1
  · have : K * (-1 / p) < 0 := by
      rw [neg_div, mul_neg, neg_lt_zero]
      positivity
    exact mul_neg_of_neg_of_pos this (by linarith)

theorem steep_step_right {K p : α} (hp : 0 < p) (hK : 2 * p ≤ K) :
    ¬ |K * ((-2 / p + 1 / p) / 2)| < tolerance ∧
    ¬ K * (-2 / p) * (K * ((-2 / p + 1 / p) / 2)) < 0 := by
  have hmid : (-2 / p + 1 / p) / 2 = -(1 / (2 * p)) := by
    field_simp
    ring
  have hK0 : 0 < K := lt_of_lt_of_le (by positivity) hK
  have h1 : 1 ≤ K * (1 / (2 * p)) := by
    rw [mul_one_div, one_le_div (by positivity)]
    exact hK
  rw [hmid]
  constructor
  · rw [not_lt, mul_neg, abs_neg, abs_of_pos (by linarith)]
    exact le_trans (le_of_lt (by unfold tolerance; norm_num)) h1
  · rw [not_lt, neg_div, mul_neg, mul_neg, neg_mul_neg]
    positivity

theorem steep_step (k : Nat) (hk : k < 500) (s : BisectState α)
    (hfa : s.fa = steepF s.a)
    (hpos : (s.a = -1 / 2 ^ k ∧ s.b = 2 / 2 ^ k) ∨ (s.a = -2 / 2 ^ k ∧ s.b = 1 / 2 ^ k)) :
    ∃ s', bisectionStep steepF s = LoopStep.next s' ∧
      s'.fa = steepF s'.a ∧
      ((s'.a = -1 / 2 ^ (k + 1) ∧ s'.b = 2 / 2 ^ (k + 1)) ∨
        (s'.a = -2 / 2 ^ (k + 1) ∧ s'.b = 1 / 2 ^ (k + 1))) := by
  have hp : (0 : α) < 2 ^ k := by positivity
  have hK : 2 * (2 : α) ^ k ≤ 2 ^ 500 := by
    rw [← pow_succ']
    exact pow_le_pow_right₀ (by norm_num) (by omega)
  have hsucc : (2 : α) ^ (k + 1) = 2 * 2 ^ k := pow_succ' 2 k
  rw [hsucc]
  generalize (2 : α) ^ k = p at hp hK hpos ⊢
  rcases hpos with ⟨ha, hb⟩ | ⟨ha, hb⟩
  · obtain ⟨h1, h2⟩ := steep_step_left hp hK
    refine ⟨{ a := s.a, b := (s.a + s.b) / 2, fa := s.fa,
              fb := steepF ((s.a + s.b) / 2) }, ?_, hfa, Or.inr ⟨?_, ?_⟩⟩
    · unfold bisectionStep
      simp only
      rw [hfa, ha, hb]
      unfold steepF
      rw [if_neg h1, if_pos h2]
    · simp only
      rw [ha]
      field_simp
    · simp only
      rw [ha, hb]
      field_simp
      ring
  · obtain ⟨h1, h2⟩ := steep_step_right hp hK
    refine ⟨{ a := (s.a + s.b) / 2, b := s.b, fa := steepF ((s.a + s.b) / 2),
              fb := s.fb }, ?_, rfl, Or.inl ⟨?_, ?_⟩⟩
    · unfold bisectionStep
      simp only
      rw [hfa, ha, hb]
      unfold steepF
      rw [if_neg h1, if_neg h2]
    · simp only
      rw [ha, hb]
      field_simp
      ring
    · simp only
      rw [hb]
      field_simp

theorem steep_iter :
    ∀ (n k : Nat) (s : BisectState α), k + n ≤ 500 →
      s.fa = steepF s.a →
      ((s.a = -1 / 2 ^ k ∧ s.b = 2 / 2 ^ k) ∨ (s.a = -2 / 2 ^ k ∧ s.b = 1 / 2 ^ k)) →
      ∃ s', bisectionIter steepF n s = some s' := by
  intro n
  induction n with
  | zero => intro k s _ _ _; exact ⟨s, rfl⟩
  | succ n ih =>
    intro k s hk hfa hpos
    obtain ⟨s1, hstep, hfa1, hpos1⟩ := steep_step k (by omega) s hfa hpos
    obtain ⟨s', hs'⟩ := ih (k + 1) s1 (by omega) hfa1 hpos1
    exact ⟨s', by rw [bisectionIter, hstep]; exact hs'⟩

theorem steep_exhausts :
    ∃ s : BisectState α,
      bisectionIter steepF 500
        { a := (-1 : α), b := 2, fa := steepF (-1), fb := steepF 2 } = some s :=
  steep_iter 500 0 { a := (-1 : α), b := 2, fa := steepF (-1), fb := steepF 2 }
    (by norm_num) rfl (Or.inl ⟨by norm_num, by norm_num⟩)

theorem steep_sign_change : steepF (-1 : α) * steepF 2 < 0 := by
  unfold steepF
  have hK : (0 : α) < 2 ^ 500 := by positivity
  generalize (2 : α) ^ 500 = K at hK
  nlinarith [mul_pos hK hK]

theorem bisection_bracket_invariant_witness :
    steepF (-1 : ℚ) * steepF 2 < 0 ∧
    ∃ s : BisectState ℚ,
      bisectionIter steepF 500
        { a := (-1 : ℚ), b := 2, fa := steepF (-1), fb := steepF 2 } = some s ∧
      (s.fa = steepF s.a ∧ s.fb = steepF s.b) ∧
      steepF s.a * steepF s.b < 0 ∧
      (min (-1 : ℚ) 2 ≤ min s.a s.b ∧ max s.a s.b ≤ max (-1 : ℚ) 2) :=
  ⟨steep_sign_change,
   steep_exhausts.elim fun s hs =>
     have hinv := bisection_bracket_invariant steepF (-1 : ℚ) 2 steep_sign_change 500 s hs
     ⟨s, hs, hinv.1, hinv.2.1, hinv.2.2.2.1⟩⟩

/-! ## C15: the root of bisection lies between the bounds -/

theorem bisectionLoop_between {f : α → α} :
    ∀ (n : Nat) (s : BisectState α),
      min s.a s.b ≤ bisectionLoop f n s ∧ bisectionLoop f n s ≤ max s.a s.b := by
  intro n
  induction n with
  | zero =>
    intro s
    rw [bisectionLoop, show (0.5 : α) * (s.a + s.b) = (s.a + s.b) / 2 from by norm_num; ring]
    exact half_between s.a s.b
  | succ n ih =>
    intro s
    rw [bisectionLoop]
    cases hs : bisectionStep f s with
    | ret r =>
      simp only
      rw [(bisectionStep_ret hs).1]
      exact half_between s.a s.b
    | next s1 =>
      simp only
      obtain ⟨_, hlo, hhi⟩ := bisectionStep_next_geometry hs
      exact ⟨hlo.trans (ih s1).1, (ih s1).2.trans hhi⟩

/-- C15: whenever `bisection` returns success, the root lies in the closed
interval between the original bounds, `min a b ≤ r ≤ max a b`. -/
theorem bisection_root_between (f : α → α) (a b root r : α)
    (h : bisection f a b root = (true, r)) :
    min a b ≤ r ∧ r ≤ max a b := by
  unfold bisection at h
  simp only at h
  split_ifs at h with h1 h2 h3
  · simp only [Prod.mk.injEq, true_and] at h
    subst h
    exact ⟨min_le_left _ _, le_max_left _ _⟩
  · simp only [Prod.mk.injEq, true_and] at h
    subst h
    exact ⟨min_le_right _ _, le_max_right _ _⟩
  · simp at h
  · simp only [Prod.mk.injEq, true_and] at h
    subst h
    exact bisectionLoop_between (f := f) max_cap { a := a, b := b, fa := f a, fb := f b }

/-! ## C12: the best-effort root of bisection is close to a zero -/

theorem bisection_of_sign_change {f : α → α} {a b root : α} (h : f a * f b < 0) :
    bisection f a b root =
      (true, bisectionLoop f max_cap { a := a, b := b, fa := f a, fb := f b }) := by
  have ha : f a ≠ 0 := fun h0 => by simp [h0] at h
  have hb : f b ≠ 0 := fun h0 => by simp [h0] at h
  have hpos : ¬ f a * f b > 0 := not_lt.mpr h.le
  simp [bisection, ha, hb, hpos]

theorem abs_half_sub_le {x y z : α} (hlo : min x y ≤ z) (hhi : z ≤ max x y) :
    |(x + y) / 2 - z| ≤ |y - x| / 2 := by
  rcases le_total x y with hxy | hxy
  · rw [min_eq_left hxy] at hlo
    rw [max_eq_right hxy] at hhi
    rw [abs_of_nonneg (sub_nonneg.mpr hxy), abs_le]
    constructor <;> linarith
  · rw [min_eq_right hxy] at hlo
    rw [max_eq_left hxy] at hhi
    rw [abs_of_nonpos (sub_nonpos.mpr hxy), abs_le]
    constructor <;> linarith

/-- C12: for a continuous `f : ℝ → ℝ` with `f a * f b < 0`, if `bisection`
runs all 500 iterations without returning, the best-effort root it returns
is within `|b − a| / 2^501` of a zero of `f`. -/
theorem bisection_exhaustion_near_zero (f : ℝ → ℝ) (hf : Continuous f) (a b root : ℝ)
    (h : f a * f b < 0)
    (hex : ∃ s, bisectionIter f 500 { a := a, b := b, fa := f a, fb := f b } = some s) :
    ∃ r z, bisection f a b root = (true, r) ∧ f z = 0 ∧ |r - z| ≤ |b - a| / 2 ^ 501 := by
  obtain ⟨s, hs⟩ := hex
  obtain ⟨_, _, hsign⟩ := bisectionIter_invariant h 500 s hs
  obtain ⟨hw, _⟩ := bisectionIter_geometry 500 s hs
  have hr : bisectionLoop f max_cap { a := a, b := b, fa := f a, fb := f b } =
      (s.a + s.b) / 2 := (bisectionLoop_spec max_cap _).2 s hs
  have hmem : (0 : ℝ) ∈ Set.uIcc (f s.a) (f s.b) := by
    rw [Set.mem_uIcc]
    rcases mul_neg_iff.mp hsign with ⟨h1, h2⟩ | ⟨h1, h2⟩
    · exact Or.inr ⟨h2.le, h1.le⟩
    · exact Or.inl ⟨h1.le, h2.le⟩
  obtain ⟨z, hz, hfz⟩ := intermediate_value_uIcc hf.continuousOn hmem
  refine ⟨(s.a + s.b) / 2, z, ?_, hfz, ?_⟩
  · rw [bisection_of_sign_change h, hr]
  · have hz' : min s.a s.b ≤ z ∧ z ≤ max s.a s.b := by
      rw [Set.uIcc, Set.mem_Icc] at hz
      exact hz
    calc |(s.a + s.b) / 2 - z| ≤ |s.b - s.a| / 2 := abs_half_sub_le hz'.1 hz'.2
      _ = |b - a| / 2 ^ 501 := by
        rw [hw, div_div, ← pow_succ]

theorem steepF_continuous : Continuous (steepF : ℝ → ℝ) := by
  unfold steepF
  exact continuous_const.mul continuous_id

theorem bisection_exhaustion_near_zero_witness :
    ∃ r z : ℝ, bisection steepF (-1) 2 7 = (true, r) ∧ steepF z = 0 ∧
      |r - z| ≤ |(2 : ℝ) - (-1)| / 2 ^ 501 :=
  bisection_exhaustion_near_zero steepF steepF_continuous (-1) 2 7 steep_sign_change
    steep_exhausts

/-! ## C18: bisection does not depend on the order of the bounds -/

theorem sign_opposite {x y m : α} (hxy : x * y < 0) (h : x * m < 0) : ¬ y * m < 0 := by
  rcases mul_neg_iff.mp hxy with ⟨hx, hy⟩ | ⟨hx, hy⟩
  · have hm : m < 0 := neg_of_mul_neg_right h hx.le
    exact not_lt.mpr (mul_pos_of_neg_of_neg hy hm).le
  · have hm : 0 < m := pos_of_mul_neg_right h hx.le
    exact not_lt.mpr (mul_pos hy hm).le

theorem bisectionStep_swap {f : α → α} (s : BisectState α) (hs : s.fa * s.fb < 0) :
    (∃ r, bisectionStep f s = LoopStep.ret r ∧
      bisectionStep f { a := s.b, b := s.a, fa := s.fb, fb := s.fa } = LoopStep.ret r) ∨
    (∃ s', bisectionStep f s = LoopStep.next s' ∧
      bisectionStep f { a := s.b, b := s.a, fa := s.fb, fb := s.fa } =
        LoopStep.next { a := s'.b, b := s'.a, fa := s'.fb, fb := s'.fa } ∧
      s'.fa * s'.fb < 0) := by
  have hmid : (s.b + s.a) / 2 = (s.a + s.b) / 2 := by rw [add_comm]
  unfold bisectionStep
  simp only
  rw [hmid]
  by_cases h1 : |f ((s.a + s.b) / 2)| < tolerance
  · left
    exact ⟨_, by rw [if_pos h1], by rw [if_pos h1]⟩
  · right
    have hm : f ((s.a + s.b) / 2) ≠ 0 := ne_zero_of_not_abs_lt_tolerance h1
    by_cases h2 : s.fa * f ((s.a + s.b) / 2) < 0
    · have h3 : ¬ s.fb * f ((s.a + s.b) / 2) < 0 := sign_opposite hs h2
      exact ⟨_, by rw [if_neg h1, if_pos h2], by rw [if_neg h1, if_neg h3], h2⟩
    · have h3 : s.fb * f ((s.a + s.b) / 2) < 0 := by
        rw [mul_comm]
        exact sign_transfer hs hm h2
      refine ⟨_, by rw [if_neg h1, if_neg h2], by rw [if_neg h1, if_pos h3], ?_⟩
      exact sign_transfer hs hm h2

theorem bisectionLoop_swap {f : α → α} :
    ∀ (n : Nat) (s : BisectState α), s.fa * s.fb < 0 →
      bisectionLoop f n { a := s.b, b := s.a, fa := s.fb, fb := s.fa } =
        bisectionLoop f n s := by
  intro n
  induction n with
  | zero =>
    intro s _
    simp only [bisectionLoop]
    rw [add_comm]
  | succ n ih =>
    intro s hs
    rw [bisectionLoop, bisectionLoop]
    rcases bisectionStep_swap (f := f) s hs with ⟨r, h1, h2⟩ | ⟨s', h1, h2, hs'⟩
    · rw [h1, h2]
    · rw [h1, h2]
      exact ih s' hs'

/-- C18: for bounds `a`, `b` that are not both exact zeros of `f`,
`bisection f a b` and `bisection f b a` return the same flag and leave the
same value in the output slot, so on success the same root. -/
theorem bisection_bounds_order (f : α → α) (a b root : α)
    (h : ¬ (f a = 0 ∧ f b = 0)) :
    bisection f a b root = bisection f b a root := by
  by_cases ha : f a = 0
  · have hb : f b ≠ 0 := fun hb => h ⟨ha, hb⟩
    simp [bisection, ha, hb]
  · by_cases hb : f b = 0
    · simp [bisection, ha, hb]
    · by_cases hpos : f a * f b > 0
      · have hpos' : f b * f a > 0 := by rw [mul_comm]; exact hpos
        simp [bisection, ha, hb, hpos, hpos']
      · have hneg : f a * f b < 0 :=
          lt_of_le_of_ne (not_lt.mp hpos) (mul_ne_zero ha hb)
        have hneg' : f b * f a < 0 := by rw [mul_comm]; exact hneg
        rw [bisection_of_sign_change hneg, bisection_of_sign_change hneg']
        rw [bisectionLoop_swap max_cap { a := a, b := b, fa := f a, fb := f b } hneg]

theorem bisection_bounds_order_witness :
    ¬ (sqrtTwoF 0 = 0 ∧ sqrtTwoF 2 = 0) ∧
    bisection sqrtTwoF 0 2 7 = bisection sqrtTwoF 2 0 7 :=
  ⟨by norm_num [sqrtTwoF],
   bisection_bounds_order sqrtTwoF 0 2 7 (by norm_num [sqrtTwoF])⟩

/-! ## C19: an exact zero at the initial guess -/

/-- C19: when `f c = 0`, `g c ≠ 0` and `a ≤ c ≤ b`, `newton_raphson` returns
success with root exactly `c`, and it does so in the first iteration (a
loop of a single iteration already returns `c`). -/
theorem newton_zero_at_guess (f g : α → α) (a b c root : α)
    (hf : f c = 0) (hg : g c ≠ 0) (hac : a ≤ c) (hcb : c ≤ b) :
    newton_raphson f g a b c root = (true, c) ∧
    newtonLoop f g a b 1 c = some c := by
  have hone : newtonLoop f g a b 1 c = some c := by
    have hdom : ¬ (c < a ∨ c > b) := by
      rw [not_or, not_lt, not_lt]
      exact ⟨hac, hcb⟩
    simp [newtonLoop, hf, hg, hdom, tolerance_pos]
  exact ⟨newton_raphson_of_some (newtonLoop_fuel_mono (by decide) hone), hone⟩

theorem newton_zero_at_guess_witness :
    (fun x : ℚ => x - 1) 1 = 0 ∧ (fun _ : ℚ => (1 : ℚ)) 1 ≠ 0 ∧
    (0 : ℚ) ≤ 1 ∧ (1 : ℚ) ≤ 2 ∧
    newton_raphson (fun x : ℚ => x - 1) (fun _ : ℚ => (1 : ℚ)) 0 2 1 7 = (true, 1) ∧
    newtonLoop (fun x : ℚ => x - 1) (fun _ : ℚ => (1 : ℚ)) 0 2 1 1 = some 1 :=
  ⟨by norm_num, by norm_num, by norm_num, by norm_num,
   newton_zero_at_guess (fun x : ℚ => x - 1) (fun _ : ℚ => (1 : ℚ)) 0 2 1 7
     (by norm_num) (by norm_num) (by norm_num) (by norm_num)⟩

/-! ## C17: a failing call leaves the output slot alone -/

/-- C17: for each of the four routines, when the call returns failure the
output slot holds the value it held before the call. -/
theorem failure_keeps_root_slot (f g : α → α) (a b c root : α) :
    ((bisection f a b root).1 = false → (bisection f a b root).2 = root) ∧
    ((regula_falsi f a b root).1 = false → (regula_falsi f a b root).2 = root) ∧
    ((newton_raphson f g a b c root).1 = false →
      (newton_raphson f g a b c root).2 = root) ∧
    ((secant f a b c root).1 = false → (secant f a b c root).2 = root) := by
  refine ⟨?_, ?_, ?_, ?_⟩
  · unfold bisection
    simp only
    split_ifs <;> simp
  · unfold regula_falsi
    simp only
    split_ifs <;> simp
  · unfold newton_raphson
    cases newtonLoop f g a b max_iter c <;> simp
  · unfold secant
    cases secantLoop f a b max_iter c (c + 1e-4) <;> simp

theorem bisection_fails_example :
    (bisection (fun x : ℚ => x ^ 2 + 1) 0 1 7).1 = false := by
  norm_num [bisection]

theorem regula_falsi_fails_example :
    (regula_falsi (fun x : ℚ => x ^ 2 + 1) 0 1 7).1 = false := by
  norm_num [regula_falsi]

theorem newton_fails_example :
    (newton_raphson sqrtTwoF sqrtTwoG 0 2 0 7).1 = false := by
  have hl : newtonLoop sqrtTwoF sqrtTwoG 0 2 max_iter 0 = none := by
    simp [max_iter, newtonLoop, sqrtTwoG]
  rw [newton_raphson_of_none hl]

theorem secant_fails_example :
    (secant (fun _ : ℚ => (5 : ℚ)) 0 2 1 7).1 = false := by
  have hl : secantLoop (fun _ : ℚ => (5 : ℚ)) 0 2 max_iter 1 (1 + 1e-4) = none := by
    simp [max_iter, secantLoop]
  rw [secant_of_none hl]

theorem failure_keeps_root_slot_witness :
    (bisection (fun x : ℚ => x ^ 2 + 1) 0 1 7).2 = 7 ∧
    (regula_falsi (fun x : ℚ => x ^ 2 + 1) 0 1 7).2 = 7 ∧
    (newton_raphson sqrtTwoF sqrtTwoG 0 2 0 7).2 = 7 ∧
    (secant (fun _ : ℚ => (5 : ℚ)) 0 2 1 7).2 = 7 :=
  ⟨(failure_keeps_root_slot (fun x : ℚ => x ^ 2 + 1) sqrtTwoG 0 1 0 7).1
      bisection_fails_example,
   (failure_keeps_root_slot (fun x : ℚ => x ^ 2 + 1) sqrtTwoG 0 1 0 7).2.1
      regula_falsi_fails_example,
   (failure_keeps_root_slot sqrtTwoF sqrtTwoG 0 2 0 7).2.2.1 newton_fails_example,
   (failure_keeps_root_slot (fun _ : ℚ => (5 : ℚ)) sqrtTwoG 0 2 1 7).2.2.2
      secant_fails_example⟩

/-! ## C13: the sign invariant of regula falsi -/

theorem regulaFalsiStep_next_cases {f : α → α} {s s' : FalsiState α}
    (h : regulaFalsiStep f s = LoopStep.next s') :
    ¬ |f (falsePosition s)| < tolerance ∧
    ((s.fa * f (falsePosition s) < 0 ∧
        s' = { a := s.a, b := falsePosition s,
               fa := if s.count_a + 1 > 1 then s.fa / 2 else s.fa,
               fb := f (falsePosition s),
               count_a := s.count_a + 1, count_b := 0 }) ∨
      (¬ s.fa * f (falsePosition s) < 0 ∧
        s' = { a := falsePosition s, b := s.b,
               fa := f (falsePosition s),
               fb := if s.count_b + 1 > 1 then s.fb / 2 else s.fb,
               count_a := 0, count_b := s.count_b + 1 })) := by
  unfold regulaFalsiStep at h
  simp only at h
  by_cases h1 : |f (falsePosition s)| < tolerance
  · unfold falsePosition at h1
    rw [if_pos h1] at h
    exact absurd h (by simp)
  · refine ⟨h1, ?_⟩
    unfold falsePosition at h1 ⊢
    rw [if_neg h1] at h
    by_cases h2 : s.fa * f (s.a - s.fa * (s.b - s.a) / (s.fb - s.fa)) < 0
    · rw [if_pos h2] at h
      simp only [LoopStep.next.injEq] at h
      exact Or.inl ⟨h2, h.symm⟩
    · rw [if_neg h2] at h
      simp only [LoopStep.next.injEq] at h
      exact Or.inr ⟨h2, h.symm⟩

theorem regulaFalsiIter_succ_iff {f : α → α} :
    ∀ (k : Nat) (s0 s' : FalsiState α),
      regulaFalsiIter f (k + 1) s0 = some s' ↔
        ∃ s, regulaFalsiIter f k s0 = some s ∧ regulaFalsiStep f s = LoopStep.next s' := by
  intro k
  induction k with
  | zero =>
    intro s0 s'
    cases hs : regulaFalsiStep f s0 with
    | ret r => simp [regulaFalsiIter, hs]
    | next s1 => simp [regulaFalsiIter, hs]
  | succ k ih =>
    intro s0 s'
    cases hs : regulaFalsiStep f s0 with
    | ret r => simp [regulaFalsiIter, hs]
    | next s1 =>
      have h1 : regulaFalsiIter f (k + 1 + 1) s0 = regulaFalsiIter f (k + 1) s1 := by
        rw [regulaFalsiIter, hs]
      have h2 : regulaFalsiIter f (k + 1) s0 = regulaFalsiIter f k s1 := by
        rw [regulaFalsiIter, hs]
      rw [h1, h2]
      exact ih s1 s'

theorem halved_eq_pos_mul (n : Nat) (x : α) :
    ∃ c : α, 0 < c ∧ (if n > 1 then x / 2 else x) = c * x := by
  by_cases hn : n > 1
  · exact ⟨1 / 2, by norm_num, by rw [if_pos hn]; ring⟩
  · exact ⟨1, one_pos, by rw [if_neg hn, one_mul]⟩

theorem regulaFalsiStep_next_sign {f : α → α} {s s' : FalsiState α}
    (h : regulaFalsiStep f s = LoopStep.next s')
    (hs : s.fa * s.fb < 0) (ha : 0 < s.fa * f s.a) (hb : 0 < s.fb * f s.b) :
    s'.fa * s'.fb < 0 ∧ 0 < s'.fa * f s'.a ∧ 0 < s'.fb * f s'.b := by
  obtain ⟨htol, hcase⟩ := regulaFalsiStep_next_cases h
  have hm : f (falsePosition s) ≠ 0 := ne_zero_of_not_abs_lt_tolerance htol
  have hmm : 0 < f (falsePosition s) * f (falsePosition s) := mul_self_pos.mpr hm
  rcases hcase with ⟨hlt, rfl⟩ | ⟨hge, rfl⟩
  · obtain ⟨c, hc, hceq⟩ := halved_eq_pos_mul (s.count_a + 1) s.fa
    simp only
    rw [hceq]
    refine ⟨?_, ?_, hmm⟩
    · rw [mul_assoc]
      exact mul_neg_of_pos_of_neg hc hlt
    · rw [mul_assoc]
      exact mul_pos hc ha
  · obtain ⟨c, hc, hceq⟩ := halved_eq_pos_mul (s.count_b + 1) s.fb
    simp only
    rw [hceq]
    refine ⟨?_, hmm, ?_⟩
    · rw [mul_left_comm]
      exact mul_neg_of_pos_of_neg hc (sign_transfer hs hm hge)
    · rw [mul_assoc]
      exact mul_pos hc hb

theorem regulaFalsiIter_sign {f : α → α} {a b : α} (h : f a * f b < 0) :
    ∀ (k : Nat) (s : FalsiState α),
      regulaFalsiIter f k
        { a := a, b := b, fa := f a, fb := f b, count_a := 0, count_b := 0 } = some s →
      s.fa * s.fb < 0 ∧ 0 < s.fa * f s.a ∧ 0 < s.fb * f s.b := by
  intro k
  induction k with
  | zero =>
    intro s hs
    simp only [regulaFalsiIter, Option.some.injEq] at hs
    subst hs
    have ha : f a ≠ 0 := fun h0 => by simp [h0] at h
    have hb : f b ≠ 0 := fun h0 => by simp [h0] at h
    exact ⟨h, mul_self_pos.mpr ha, mul_self_pos.mpr hb⟩
  | succ k ih =>
    intro s hs
    obtain ⟨s1, hs1, hstep⟩ := (regulaFalsiIter_succ_iff k _ s).mp hs
    obtain ⟨h1, h2, h3⟩ := ih s1 hs1
    exact regulaFalsiStep_next_sign hstep h1 h2 h3

theorem opposite_of_same_sign {x y u v : α} (hxy : x * y < 0) (hu : 0 < x * u)
    (hv : 0 < y * v) : u * v < 0 := by
  rcases mul_neg_iff.mp hxy with ⟨hx, hy⟩ | ⟨hx, hy⟩
  · have hu' : 0 < u := pos_of_mul_pos_right hu hx.le
    have hv' : v < 0 := neg_of_mul_pos_right hv hy.le
    exact mul_neg_of_pos_of_neg hu' hv'
  · have hu' : u < 0 := neg_of_mul_pos_right hu hx.le
    have hv' : 0 < v := pos_of_mul_pos_right hv hy.le
    exact mul_neg_of_neg_of_pos hu' hv'

/-- C13: in `regula_falsi` started with `f a * f b < 0`, in the state after
`k` passes of the loop (where the false-position formula is evaluated next,
in iteration `k` or, for `k = 500`, in the exhaustion fallback) the cached
`fa` and `fb` are non-zero with strictly opposite signs, each has the sign of
`f` at its endpoint, `f a * f b < 0` still holds, and the denominator
`fb − fa` is not zero. -/
theorem regula_falsi_sign_invariant (f : α → α) (a b : α) (h : f a * f b < 0)
    (k : Nat) (s : FalsiState α)
    (hs : regulaFalsiIter f k
      { a := a, b := b, fa := f a, fb := f b, count_a := 0, count_b := 0 } = some s) :
    (s.fa ≠ 0 ∧ s.fb ≠ 0) ∧
    s.fa * s.fb < 0 ∧
    (0 < s.fa * f s.a ∧ 0 < s.fb * f s.b) ∧
    f s.a * f s.b < 0 ∧
    s.fb - s.fa ≠ 0 := by
  obtain ⟨h1, h2, h3⟩ := regulaFalsiIter_sign h k s hs
  have hfa : s.fa ≠ 0 := fun h0 => by simp [h0] at h1
  have hfb : s.fb ≠ 0 := fun h0 => by simp [h0] at h1
  refine ⟨⟨hfa, hfb⟩, h1, ⟨h2, h3⟩, opposite_of_same_sign h1 h2 h3, ?_⟩
  intro hd
  have heq : s.fb = s.fa := sub_eq_zero.mp hd
  rw [heq] at h1
  exact absurd h1 (not_lt.mpr (mul_self_nonneg s.fa))

theorem regulaFalsiStep_sqrtTwo_zero :
    regulaFalsiStep sqrtTwoF
      { a := 0, b := 2, fa := sqrtTwoF 0, fb := sqrtTwoF 2, count_a := 0, count_b := 0 } =
      LoopStep.next { a := 1, b := 2, fa := -1, fb := 2, count_a := 0, count_b := 1 } := by
  norm_num [regulaFalsiStep, sqrtTwoF, tolerance, abs_lt]

theorem regulaFalsiStep_sqrtTwo_one :
    regulaFalsiStep sqrtTwoF
      { a := 1, b := 2, fa := -1, fb := 2, count_a := 0, count_b := 1 } =
      LoopStep.next { a := 4 / 3, b := 2, fa := -2 / 9, fb := 1, count_a := 0, count_b := 2 } := by
  norm_num [regulaFalsiStep, sqrtTwoF, tolerance, abs_lt]

theorem regulaFalsiIter_sqrtTwo_two :
    regulaFalsiIter sqrtTwoF 2
      { a := 0, b := 2, fa := sqrtTwoF 0, fb := sqrtTwoF 2, count_a := 0, count_b := 0 } =
      some { a := 4 / 3, b := 2, fa := -2 / 9, fb := 1, count_a := 0, count_b := 2 } := by
  rw [regulaFalsiIter, regulaFalsiStep_sqrtTwo_zero]
  simp only
  rw [regulaFalsiIter, regulaFalsiStep_sqrtTwo_one]
  rfl

theorem sqrtTwo_sign_change : sqrtTwoF 0 * sqrtTwoF 2 < 0 := by
  norm_num [sqrtTwoF]

theorem regula_falsi_sign_invariant_witness :
    ((-2 / 9 : ℚ) ≠ 0 ∧ (1 : ℚ) ≠ 0) ∧
    (-2 / 9 : ℚ) * 1 < 0 ∧
    (0 < (-2 / 9 : ℚ) * sqrtTwoF (4 / 3) ∧ 0 < (1 : ℚ) * sqrtTwoF 2) ∧
    sqrtTwoF (4 / 3) * sqrtTwoF 2 < 0 ∧
    (1 : ℚ) - -2 / 9 ≠ 0 :=
  regula_falsi_sign_invariant sqrtTwoF 0 2 sqrtTwo_sign_change 2
    { a := 4 / 3, b := 2, fa := -2 / 9, fb := 1, count_a := 0, count_b := 2 }
    regulaFalsiIter_sqrtTwo_two

/-! ## C14: the cached values under the Illinois correction -/

theorem regulaFalsiStep_next_cached {f : α → α} {s s' : FalsiState α}
    (h : regulaFalsiStep f s = LoopStep.next s')
    (ha : s.fa = f s.a / 2 ^ (s.count_a - 1)) (hb : s.fb = f s.b / 2 ^ (s.count_b - 1)) :
    s'.fa = f s'.a / 2 ^ (s'.count_a - 1) ∧ s'.fb = f s'.b / 2 ^ (s'.count_b - 1) := by
  rcases (regulaFalsiStep_next_cases h).2 with ⟨_, rfl⟩ | ⟨_, rfl⟩
  · refine ⟨?_, by simp⟩
    simp only [Nat.add_sub_cancel]
    by_cases hc : s.count_a + 1 > 1
    · rw [if_pos hc, ha]
      obtain ⟨c, hc'⟩ : ∃ c, s.count_a = c + 1 := ⟨s.count_a - 1, by omega⟩
      rw [hc', Nat.add_sub_cancel, pow_succ, div_div]
    · rw [if_neg hc, ha]
      have h0 : s.count_a = 0 := by omega
      rw [h0]
  · refine ⟨by simp, ?_⟩
    simp only [Nat.add_sub_cancel]
    by_cases hc : s.count_b + 1 > 1
    · rw [if_pos hc, hb]
      obtain ⟨c, hc'⟩ : ∃ c, s.count_b = c + 1 := ⟨s.count_b - 1, by omega⟩
      rw [hc', Nat.add_sub_cancel, pow_succ, div_div]
    · rw [if_neg hc, hb]
      have h0 : s.count_b = 0 := by omega
      rw [h0]

theorem regulaFalsiIter_cached {f : α → α} {a b : α} :
    ∀ (k : Nat) (s : FalsiState α),
      regulaFalsiIter f k
        { a := a, b := b, fa := f a, fb := f b, count_a := 0, count_b := 0 } = some s →
      s.fa = f s.a / 2 ^ (s.count_a - 1) ∧ s.fb = f s.b / 2 ^ (s.count_b - 1) := by
  intro k
  induction k with
  | zero =>
    intro s hs
    simp only [regulaFalsiIter, Option.some.injEq] at hs
    subst hs
    simp
  | succ k ih =>
    intro s hs
    obtain ⟨s1, hs1, hstep⟩ := (regulaFalsiIter_succ_iff k _ s).mp hs
    obtain ⟨h1, h2⟩ := ih s1 hs1
    exact regulaFalsiStep_next_cached hstep h1 h2

/-- C14: in `regula_falsi`, the state after `k` passes of the loop has
`fa = f a / 2^(count_a − 1)` and `fb = f b / 2^(count_b − 1)` (truncated
subtraction, so the exponent is `max (count − 1) 0`); in particular an
endpoint with count at most 1 has its exact value.  In the next pass one
endpoint is retained, its count grows by one and its cached value is halved
exactly when the new count is at least 2, while the other endpoint is
replaced by the false-position point `m`, gets the exact value `f m` and has
its count reset to 0. -/
theorem illinois_cached_values (f : α → α) (a b : α) (k : Nat) (s : FalsiState α)
    (hs : regulaFalsiIter f k
      { a := a, b := b, fa := f a, fb := f b, count_a := 0, count_b := 0 } = some s) :
    (s.fa = f s.a / 2 ^ (s.count_a - 1) ∧ s.fb = f s.b / 2 ^ (s.count_b - 1)) ∧
    ((s.count_a ≤ 1 → s.fa = f s.a) ∧ (s.count_b ≤ 1 → s.fb = f s.b)) ∧
    (k = 0 → s.count_a = 0 ∧ s.count_b = 0) ∧
    (∀ s', regulaFalsiIter f (k + 1)
        { a := a, b := b, fa := f a, fb := f b, count_a := 0, count_b := 0 } = some s' →
      (s'.a = s.a ∧ s'.count_a = s.count_a + 1 ∧
        s'.fa = (if 2 ≤ s'.count_a then s.fa / 2 else s.fa) ∧
        s'.b = falsePosition s ∧ s'.fb = f (falsePosition s) ∧ s'.count_b = 0) ∨
      (s'.b = s.b ∧ s'.count_b = s.count_b + 1 ∧
        s'.fb = (if 2 ≤ s'.count_b then s.fb / 2 else s.fb) ∧
        s'.a = falsePosition s ∧ s'.fa = f (falsePosition s) ∧ s'.count_a = 0)) := by
  obtain ⟨h1, h2⟩ := regulaFalsiIter_cached k s hs
  refine ⟨⟨h1, h2⟩, ⟨fun hc => ?_, fun hc => ?_⟩, fun hk => ?_, fun s' hs' => ?_⟩
  · rw [h1, Nat.sub_eq_zero_of_le hc, pow_zero, div_one]
  · rw [h2, Nat.sub_eq_zero_of_le hc, pow_zero, div_one]
  · subst hk
    simp only [regulaFalsiIter, Option.some.injEq] at hs
    subst hs
    exact ⟨rfl, rfl⟩
  · obtain ⟨s1, hs1, hstep⟩ := (regulaFalsiIter_succ_iff k _ s').mp hs'
    rw [hs] at hs1
    simp only [Option.some.injEq] at hs1
    subst hs1
    rcases (regulaFalsiStep_next_cases hstep).2 with ⟨_, rfl⟩ | ⟨_, rfl⟩
    · exact Or.inl ⟨rfl, rfl, rfl, rfl, rfl, rfl⟩
    · exact Or.inr ⟨rfl, rfl, rfl, rfl, rfl, rfl⟩

theorem illinois_cached_values_witness :
    ((-2 / 9 : ℚ) = sqrtTwoF (4 / 3) / 2 ^ (0 - 1) ∧
      (1 : ℚ) = sqrtTwoF 2 / 2 ^ (2 - 1)) ∧
    (((0 : Nat) ≤ 1 → (-2 / 9 : ℚ) = sqrtTwoF (4 / 3)) ∧
      ((2 : Nat) ≤ 1 → (1 : ℚ) = sqrtTwoF 2)) :=
  ⟨(illinois_cached_values sqrtTwoF 0 2 2
      { a := 4 / 3, b := 2, fa := -2 / 9, fb := 1, count_a := 0, count_b := 2 }
      regulaFalsiIter_sqrtTwo_two).1,
   (illinois_cached_values sqrtTwoF 0 2 2
      { a := 4 / 3, b := 2, fa := -2 / 9, fb := 1, count_a := 0, count_b := 2 }
      regulaFalsiIter_sqrtTwo_two).2.1⟩

/-! ## C16: the false-position points lie strictly inside the bracket -/

theorem falsePosition_between {x y u v : α} (hne : x ≠ y) (huv : u * v < 0) :
    min x y < x - u * (y - x) / (v - u) ∧ x - u * (y - x) / (v - u) < max x y := by
  have hd : v - u ≠ 0 := by
    intro hd
    rw [sub_eq_zero.mp hd] at huv
    exact absurd huv (not_lt.mpr (mul_self_nonneg u))
  have ht : 0 < -u / (v - u) := by
    rcases mul_neg_iff.mp huv with ⟨hu, hv⟩ | ⟨hu, hv⟩
    · exact div_pos_of_neg_of_neg (by linarith) (by linarith)
    · exact div_pos (by linarith) (by linarith)
  have ht' : 0 < v / (v - u) := by
    rcases mul_neg_iff.mp huv with ⟨hu, hv⟩ | ⟨hu, hv⟩
    · exact div_pos_of_neg_of_neg hv (by linarith)
    · exact div_pos hv (by linarith)
  have h1 : x - u * (y - x) / (v - u) - x = -u / (v - u) * (y - x) := by
    field_simp
    ring
  have h2 : y - (x - u * (y - x) / (v - u)) = v / (v - u) * (y - x) := by
    field_simp
    ring
  rcases lt_or_gt_of_ne hne with hxy | hxy
  · rw [min_eq_left hxy.le, max_eq_right hxy.le]
    have hpos : 0 < y - x := sub_pos.mpr hxy
    constructor
    · have := mul_pos ht hpos
      rw [← h1] at this
      linarith
    · have := mul_pos ht' hpos
      rw [← h2] at this
      linarith
  · rw [min_eq_right hxy.le, max_eq_left hxy.le]
    have hneg : y - x < 0 := sub_neg.mpr hxy
    constructor
    · have := mul_neg_of_pos_of_neg ht' hneg
      rw [← h2] at this
      linarith
    · have := mul_neg_of_pos_of_neg ht hneg
      rw [← h1] at this
      linarith

theorem regulaFalsiStep_next_geometry {f : α → α} {s s' : FalsiState α}
    (h : regulaFalsiStep f s = LoopStep.next s')
    (hne : s.a ≠ s.b) (hs : s.fa * s.fb < 0) :
    s'.a ≠ s'.b ∧ min s.a s.b ≤ min s'.a s'.b ∧ max s'.a s'.b ≤ max s.a s.b := by
  obtain ⟨hlo, hhi⟩ := falsePosition_between hne hs
  have hm : s.a - s.fa * (s.b - s.a) / (s.fb - s.fa) = falsePosition s := rfl
  rw [hm] at hlo hhi
  rcases (regulaFalsiStep_next_cases h).2 with ⟨_, rfl⟩ | ⟨_, rfl⟩
  · simp only
    refine ⟨?_, le_min (min_le_left _ _) hlo.le, max_le (le_max_left _ _) hhi.le⟩
    intro heq
    rw [← heq] at hlo hhi
    rcases le_total s.a s.b with hab | hab
    · rw [min_eq_left hab] at hlo
      exact lt_irrefl _ hlo
    · rw [max_eq_left hab] at hhi
      exact lt_irrefl _ hhi
  · simp only
    refine ⟨?_, le_min hlo.le (min_le_right _ _), max_le hhi.le (le_max_right _ _)⟩
    intro heq
    rw [heq] at hlo hhi
    rcases le_total s.a s.b with hab | hab
    · rw [max_eq_right hab] at hhi
      exact lt_irrefl _ hhi
    · rw [min_eq_right hab] at hlo
      exact lt_irrefl _ hlo

theorem regulaFalsiLoop_between {f : α → α} :
    ∀ (n : Nat) (s : FalsiState α), s.a ≠ s.b →
      s.fa * s.fb < 0 → 0 < s.fa * f s.a → 0 < s.fb * f s.b →
      min s.a s.b ≤ regulaFalsiLoop f n s ∧ regulaFalsiLoop f n s ≤ max s.a s.b := by
  intro n
  induction n with
  | zero =>
    intro s hne hs _ _
    rw [regulaFalsiLoop]
    obtain ⟨hlo, hhi⟩ := falsePosition_between hne hs
    exact ⟨hlo.le, hhi.le⟩
  | succ n ih =>
    intro s hne hs ha hb
    rw [regulaFalsiLoop]
    cases hstep : regulaFalsiStep f s with
    | ret r =>
      simp only
      rw [(regulaFalsiStep_ret hstep).1]
      obtain ⟨hlo, hhi⟩ := falsePosition_between hne hs
      exact ⟨hlo.le, hhi.le⟩
    | next s1 =>
      simp only
      obtain ⟨hne1, hlo, hhi⟩ := regulaFalsiStep_next_geometry hstep hne hs
      obtain ⟨hs1, ha1, hb1⟩ := regulaFalsiStep_next_sign hstep hs ha hb
      obtain ⟨h1, h2⟩ := ih s1 hne1 hs1 ha1 hb1
      exact ⟨hlo.trans h1, h2.trans hhi⟩

theorem regulaFalsiIter_distinct {f : α → α} {a b : α} (h : f a * f b < 0) :
    ∀ (k : Nat) (s : FalsiState α),
      regulaFalsiIter f k
        { a := a, b := b, fa := f a, fb := f b, count_a := 0, count_b := 0 } = some s →
      s.a ≠ s.b := by
  intro k
  induction k with
  | zero =>
    intro s hs
    simp only [regulaFalsiIter, Option.some.injEq] at hs
    subst hs
    intro hab
    simp only at hab
    rw [hab] at h
    exact absurd h (not_lt.mpr (mul_self_nonneg (f b)))
  | succ k ih =>
    intro s hs
    obtain ⟨s1, hs1, hstep⟩ := (regulaFalsiIter_succ_iff k _ s).mp hs
    exact (regulaFalsiStep_next_geometry hstep (ih s1 hs1)
      (regulaFalsiIter_sign h k s1 hs1).1).1

theorem regula_falsi_of_sign_change {f : α → α} {a b root : α} (h : f a * f b < 0) :
    regula_falsi f a b root =
      (true, regulaFalsiLoop f max_cap
        { a := a, b := b, fa := f a, fb := f b, count_a := 0, count_b := 0 }) := by
  have ha : f a ≠ 0 := fun h0 => by simp [h0] at h
  have hb : f b ≠ 0 := fun h0 => by simp [h0] at h
  have hpos : ¬ f a * f b > 0 := not_lt.mpr h.le
  simp [regula_falsi, ha, hb, hpos]

/-- C16: whenever `regula_falsi` returns success the root lies in the closed
interval between the original bounds; and when `f a * f b < 0`, the
false-position point of the state after `k` passes of the loop (computed in
iteration `k`, or by the exhaustion fallback for `k = 500`, from cached
values that may have been halved) lies strictly between the current
endpoints. -/
theorem regula_falsi_root_between (f : α → α) (a b root : α) :
    (∀ r, regula_falsi f a b root = (true, r) → min a b ≤ r ∧ r ≤ max a b) ∧
    (f a * f b < 0 → ∀ (k : Nat) (s : FalsiState α),
      regulaFalsiIter f k
        { a := a, b := b, fa := f a, fb := f b, count_a := 0, count_b := 0 } = some s →
      min s.a s.b < s.a - s.fa * (s.b - s.a) / (s.fb - s.fa) ∧
      s.a - s.fa * (s.b - s.a) / (s.fb - s.fa) < max s.a s.b) := by
  constructor
  · intro r h
    by_cases ha : f a = 0
    · simp [regula_falsi, ha] at h
      subst h
      exact ⟨min_le_left _ _, le_max_left _ _⟩
    · by_cases hb : f b = 0
      · simp [regula_falsi, ha, hb] at h
        subst h
        exact ⟨min_le_right _ _, le_max_right _ _⟩
      · by_cases hpos : f a * f b > 0
        · simp [regula_falsi, ha, hb, hpos] at h
        · have hneg : f a * f b < 0 :=
            lt_of_le_of_ne (not_lt.mp hpos) (mul_ne_zero ha hb)
          rw [regula_falsi_of_sign_change hneg] at h
          simp only [Prod.mk.injEq, true_and] at h
          subst h
          have hne : a ≠ b := by
            intro hab
            rw [hab] at hneg
            exact absurd hneg (not_lt.mpr (mul_self_nonneg (f b)))
          exact regulaFalsiLoop_between (f := f) max_cap
            { a := a, b := b, fa := f a, fb := f b, count_a := 0, count_b := 0 }
            hne hneg (mul_self_pos.mpr ha) (mul_self_pos.mpr hb)
  · intro h k s hs
    exact falsePosition_between (regulaFalsiIter_distinct h k s hs)
      (regulaFalsiIter_sign h k s hs).1

theorem regula_falsi_root_between_witness :
    (min (0 : ℚ) 2 ≤ regulaFalsiLoop sqrtTwoF max_cap
        { a := 0, b := 2, fa := sqrtTwoF 0, fb := sqrtTwoF 2, count_a := 0, count_b := 0 } ∧
      regulaFalsiLoop sqrtTwoF max_cap
        { a := 0, b := 2, fa := sqrtTwoF 0, fb := sqrtTwoF 2, count_a := 0, count_b := 0 } ≤
        max (0 : ℚ) 2) ∧
    (min (4 / 3 : ℚ) 2 < 4 / 3 - -2 / 9 * (2 - 4 / 3) / (1 - -2 / 9) ∧
      (4 / 3 : ℚ) - -2 / 9 * (2 - 4 / 3) / (1 - -2 / 9) < max (4 / 3 : ℚ) 2) :=
  ⟨(regula_falsi_root_between sqrtTwoF 0 2 7).1 _
      (regula_falsi_of_sign_change sqrtTwo_sign_change),
   (regula_falsi_root_between sqrtTwoF 0 2 7).2 sqrtTwo_sign_change 2
      { a := 4 / 3, b := 2, fa := -2 / 9, fb := 1, count_a := 0, count_b := 2 }
      regulaFalsiIter_sqrtTwo_two⟩

theorem bisection_root_between_witness :
    min (0 : ℚ) 2 ≤ bisectionLoop sqrtTwoF max_cap
        { a := 0, b := 2, fa := sqrtTwoF 0, fb := sqrtTwoF 2 } ∧
    bisectionLoop sqrtTwoF max_cap
        { a := 0, b := 2, fa := sqrtTwoF 0, fb := sqrtTwoF 2 } ≤ max (0 : ℚ) 2 :=
  bisection_root_between sqrtTwoF 0 2 7 _ (bisection_of_sign_change sqrtTwo_sign_change)

end Roots
